import Mathlib

/-!
Verification of the hybrid-retrieval repository (ingest_offline.py,
hybrid_retrieval_api.py) against its natural-language specification.

The Python source is shallowly embedded: pure helpers become Lean
functions on `String`, `List`, `ℕ`, `ℤ` and `ℚ`; the stateful dedup loop
of `main` in ingest_offline.py becomes an explicit fold over an
ingestion state.  Machine integers are modelled as `ℕ` with explicit
`% 2 ^ w` where the Python code relies on fixed width (MD5 and SHA-256
words).  Floating-point score arithmetic of the online path is modelled
over `ℚ` (exact arithmetic); where a claim depends only on the selection
logic and not on the numeric values, the scores are universally
quantified so the result covers the values the float code produces.
-/

/-! # Text normalizer (hybrid_retrieval_api.py, tokenize) -/

/-- A character matched by the character class `[A-Za-z0-9_]` of the
regular expression used by `tokenize`. -/
def isWordChar (c : Char) : Bool :=
  (('a' ≤ c && c ≤ 'z') || ('A' ≤ c && c ≤ 'Z') || ('0' ≤ c && c ≤ '9') || c = '_')

/-- Maximal runs of characters satisfying `p`, in order; the embedding of
`re.findall` for a character-class-plus regex. -/
def runsBy (p : Char → Bool) : List Char → List (List Char)
  | [] => []
  | c :: cs =>
    let rest := runsBy p cs
    if p c then
      match cs with
      | [] => [[c]]
      | c2 :: _ =>
        if p c2 then
          match rest with
          | [] => [[c]]
          | r :: rs => (c :: r) :: rs
        else [c] :: rest
    else rest

/-- `tokenize(s)` from hybrid_retrieval_api.py:
`re.findall(r"[A-Za-z0-9_]+", s.lower())`.  (ASCII model of
`str.lower`.) -/
def tokenize (s : String) : List String :=
  (runsBy isWordChar (s.data.map Char.toLower)).map List.asString

/-! # Signal parameter validation (hybrid_retrieval_api.py, retrieve) -/

/-- A tiny regex abstract syntax: string literals and alternation.  The
pattern `^(...|...)$` of the FastAPI `Query(..., regex=...)` validator is
an anchored alternation of literals, so full-match semantics over these
two constructors model it exactly. -/
inductive RegexAlt where
  | lit (s : String)
  | alt (a b : RegexAlt)

/-- Full-match semantics of an anchored alternation of literals. -/
def regexFullMatch : RegexAlt → String → Bool
  | RegexAlt.lit t, s => s = t
  | RegexAlt.alt a b, s => regexFullMatch a s || regexFullMatch b s

/-- The pattern the code actually passes to the validator of `signal`:
`^(hybrid|bm25|vector)$` (hybrid_retrieval_api.py line 223). -/
def signalPattern : RegexAlt :=
  RegexAlt.alt (RegexAlt.lit "hybrid") (RegexAlt.alt (RegexAlt.lit "bm25") (RegexAlt.lit "vector"))

/-- Validation of the `signal` query parameter: the request is accepted
iff the pattern matches in full. -/
def acceptsSignal (s : String) : Bool :=
  regexFullMatch signalPattern s

/-! # Rank fuser (hybrid_retrieval_api.py, rrf_union)

A Python dict is modelled as an association list with pairwise-distinct
keys kept in insertion order; `defaultdict(float)` accumulation inserts
a new key at the end and updates an existing key in place.  Python's
`sorted` is a stable sort, modelled by a stable insertion sort. -/

/-- `scores[doc_id] += x` on a `defaultdict(float)` modelled as an
insertion-ordered association list. -/
def addScore (acc : List (String × ℚ)) (cid : String) (x : ℚ) : List (String × ℚ) :=
  match acc with
  | [] => [(cid, x)]
  | (c, v) :: rest => if c = cid then (c, v + x) :: rest else (c, v) :: addScore rest cid x

/-- One `(doc_id, r)` entry of a rank map: `scores[doc_id] += 1/(k+r)`. -/
def rrfStepEntry (k : ℕ) (acc : List (String × ℚ)) (p : String × ℕ) : List (String × ℚ) :=
  addScore acc p.1 (1 / ((k : ℚ) + p.2))

/-- The inner loop of `rrf_union` over one rank map. -/
def rrfStepMap (k : ℕ) (acc : List (String × ℚ)) (m : List (String × ℕ)) : List (String × ℚ) :=
  m.foldl (rrfStepEntry k) acc

/-- The accumulation loop of `rrf_union`: for every rank map and every
`(doc_id, r)` entry, add `1 / (k + r)` to the doc's score. -/
def rrfAccum (rankings : List (List (String × ℕ))) (k : ℕ) : List (String × ℚ) :=
  rankings.foldl (rrfStepMap k) []

/-- Stable insertion step for descending order on the score component:
the new element goes before the first element whose score is `≤` its
own, so earlier elements win ties (stability). -/
def insertDesc (x : String × ℚ) : List (String × ℚ) → List (String × ℚ)
  | [] => [x]
  | y :: ys => if y.2 ≤ x.2 then x :: y :: ys else y :: insertDesc x ys

/-- Stable sort by descending score: the model of Python's
`sorted(..., key=lambda x: -x[1])`. -/
def sortDesc : List (String × ℚ) → List (String × ℚ)
  | [] => []
  | x :: xs => insertDesc x (sortDesc xs)

/-- `rrf_union(rankings, k)` from hybrid_retrieval_api.py lines 50-56. -/
def rrf_union (rankings : List (List (String × ℕ))) (k : ℕ) : List (String × ℚ) :=
  sortDesc (rrfAccum rankings k)

/-- The specified RRF score of a cid: the sum over the rank maps of
`1 / (k + rank)`, a missing rank contributing 0. -/
def rrfScore (rankings : List (List (String × ℕ))) (k : ℕ) (cid : String) : ℚ :=
  (rankings.map (fun m => match m.lookup cid with
    | some r => 1 / ((k : ℚ) + r)
    | none => 0)).sum

/-- Whether a cid appears in at least one rank map. -/
def appearsIn (rankings : List (List (String × ℕ))) (cid : String) : Bool :=
  rankings.any fun m => (m.lookup cid).isSome

/-! # Phrase matching (hybrid_retrieval_api.py, phrase_present) -/

/-- Whether `n` is an initial segment of `h` (character lists). -/
def headMatch : List Char → List Char → Bool
  | [], _ => true
  | _ :: _, [] => false
  | a :: n, b :: h => a = b && headMatch n h

/-- Python's substring test `n in h` on character lists: `n` occurs
contiguously somewhere in `h`. -/
def subStr (n : List Char) : List Char → Bool
  | [] => headMatch n []
  | c :: t => headMatch n (c :: t) || subStr n t

/-- `" ".join(ws)` as a character list. -/
def joinSp : List String → List Char
  | [] => []
  | [w] => w.data
  | w :: ws => w.data ++ ' ' :: joinSp ws

/-- `phrase_present(text, phrase, prox)` from hybrid_retrieval_api.py
lines 90-102: tokenize both sides; empty phrase tokens or a body shorter
(in tokens) than the phrase give `False`; with `prox = 0` test
`" ".join(p) in " ".join(words)` (a *string* containment of the joined
tokens); with `prox > 0` scan the indices holding the first phrase token
and test that every phrase token occurs in the window
`words[i : i+len(p)+prox]`. -/
def phrase_present (text phrase : String) (prox : ℕ) : Bool :=
  let words := tokenize text
  let p := tokenize phrase
  if p.isEmpty || decide (words.length < p.length) then false
  else if prox = 0 then subStr (joinSp p) (joinSp words)
  else
    ((List.range words.length).filter (fun i => words.getD i "" == p.headD "")).any
      (fun i => p.all (fun pw => ((words.drop i).take (p.length + prox)).any (fun w2 => w2 == pw)))

/-! # Constraint filter (hybrid_retrieval_api.py, keyword_hits,
coverage_score and the filter loop of retrieve, lines 300-320) -/

/-- One pass of deduplication with an explicit set of already-seen
elements. -/
def firstDedupAux (seen : List String) : List String → List String
  | [] => []
  | x :: xs =>
    if seen.contains x then firstDedupAux seen xs
    else x :: firstDedupAux (x :: seen) xs

/-- Deduplicate a list keeping the first occurrence of each element: the
key order of a Python dict or set built by one left-to-right pass. -/
def firstDedup (l : List String) : List String :=
  firstDedupAux [] l

/-- `keyword_hits(text, terms)`: the set of required terms occurring in
the token set of the text (the code returns a Python set; only its
cardinality and membership matter downstream, so it is modelled as a
duplicate-free list). -/
def keyword_hits (text : String) (terms : List String) : List String :=
  firstDedup (terms.filter (fun t => (tokenize text).contains t))

/-- The keys of the dict `ph_ok = {p: phrase_present(...) for p in
req_phrases}` that map to `True`: the *distinct* required phrases present
in the text. -/
def phraseHits (text : String) (phrases : List String) (prox : ℕ) : List String :=
  (firstDedup phrases).filter (fun p => phrase_present text p prox)

/-- The coverage component of `coverage_score(doc_text, req_terms,
req_phrases, proximity)`: fraction of distinct required tokens present
plus the number of distinct required phrases present divided by the
total (duplicate-counting) number of required phrases. -/
def coverage_score (doc : String) (req_terms req_phrases : List String) (prox : ℕ) : ℚ :=
  (if req_terms.isEmpty then 0
    else ((keyword_hits doc req_terms).length : ℚ) / (max 1 req_terms.length : ℕ)) +
  (if req_phrases.isEmpty then 0
    else ((phraseHits doc req_phrases prox).length : ℚ) / (max 1 req_phrases.length : ℕ))

/-- The strict-filter predicate of `retrieve` (lines 304-312):
`enough_tokens` is vacuous without required terms, otherwise the count
of distinct required tokens present must reach
`need = min_hits if min_hits > 0 else len(req_terms)`; `phrases_ok` is
vacuous without required phrases, otherwise the number of distinct
phrases present must equal `len(req_phrases)`. -/
def passesFilter (doc : String) (req_terms req_phrases : List String)
    (min_hits : ℤ) (prox : ℕ) : Bool :=
  (req_terms.isEmpty ||
    decide (((keyword_hits doc req_terms).length : ℤ) ≥
      (if min_hits > 0 then min_hits else (req_terms.length : ℤ)))) &&
  (req_phrases.isEmpty ||
    decide ((phraseHits doc req_phrases prox).length = req_phrases.length))

/-- The candidates retained by the strict filter, in fused order.
A candidate is an `(id, body)` pair; the metadata records the code
carries in lockstep are irrelevant to the filter decision. -/
def strictKeep (cands : List (String × String)) (req_terms req_phrases : List String)
    (min_hits : ℤ) (prox : ℕ) : List (String × String) :=
  cands.filter (fun c => passesFilter c.2 req_terms req_phrases min_hits prox)

/-- The whole constraint-filter stage (lines 300-320): strict filtering
with coverage attached; if nothing survives, fall back to the full
candidate list, recomputing coverage for every candidate. -/
def filterStage (cands : List (String × String)) (req_terms req_phrases : List String)
    (min_hits : ℤ) (prox : ℕ) : List ((String × String) × ℚ) :=
  let kept := strictKeep cands req_terms req_phrases min_hits prox
  if kept.isEmpty then
    cands.map (fun c => (c, coverage_score c.2 req_terms req_phrases prox))
  else
    kept.map (fun c => (c, coverage_score c.2 req_terms req_phrases prox))

/-! # MD5 (hashlib.md5, used by simhash in ingest_offline.py)

A full embedding of RFC 1321 over `ℕ` with explicit `% 2 ^ 32`;
validated against the standard test vectors. -/

/-- UTF-8 encoding of one code point (`str.encode("utf-8")`). -/
def utf8Bytes (c : Char) : List ℕ :=
  let n := c.toNat
  if n < 0x80 then [n]
  else if n < 0x800 then [0xC0 ||| (n >>> 6), 0x80 ||| (n &&& 0x3F)]
  else if n < 0x10000 then
    [0xE0 ||| (n >>> 12), 0x80 ||| ((n >>> 6) &&& 0x3F), 0x80 ||| (n &&& 0x3F)]
  else
    [0xF0 ||| (n >>> 18), 0x80 ||| ((n >>> 12) &&& 0x3F), 0x80 ||| ((n >>> 6) &&& 0x3F),
      0x80 ||| (n &&& 0x3F)]

/-- The UTF-8 bytes of a string. -/
def strBytes (s : String) : List ℕ :=
  (s.data.map utf8Bytes).flatten

/-- 32-bit left rotation. -/
def rotl32 (x s : ℕ) : ℕ :=
  ((x <<< s) ||| (x >>> (32 - s))) % 2 ^ 32

/-- Little-endian byte serialization of `x` on `k` bytes. -/
def leBytes : ℕ → ℕ → List ℕ
  | 0, _ => []
  | k + 1, x => (x % 256) :: leBytes k (x / 256)

/-- The MD5 sine-derived constant table `T[1..64]`. -/
def md5K : List ℕ :=
  [0xd76aa478, 0xe8c7b756, 0x242070db, 0xc1bdceee, 0xf57c0faf, 0x4787c62a, 0xa8304613, 0xfd469501,
   0x698098d8, 0x8b44f7af, 0xffff5bb1, 0x895cd7be, 0x6b901122, 0xfd987193, 0xa679438e, 0x49b40821,
   0xf61e2562, 0xc040b340, 0x265e5a51, 0xe9b6c7aa, 0xd62f105d, 0x02441453, 0xd8a1e681, 0xe7d3fbc8,
   0x21e1cde6, 0xc33707d6, 0xf4d50d87, 0x455a14ed, 0xa9e3e905, 0xfcefa3f8, 0x676f02d9, 0x8d2a4c8a,
   0xfffa3942, 0x8771f681, 0x6d9d6122, 0xfde5380c, 0xa4beea44, 0x4bdecfa9, 0xf6bb4b60, 0xbebfbc70,
   0x289b7ec6, 0xeaa127fa, 0xd4ef3085, 0x04881d05, 0xd9d4d039, 0xe6db99e5, 0x1fa27cf8, 0xc4ac5665,
   0xf4292244, 0x432aff97, 0xab9423a7, 0xfc93a039, 0x655b59c3, 0x8f0ccc92, 0xffeff47d, 0x85845dd1,
   0x6fa87e4f, 0xfe2ce6e0, 0xa3014314, 0x4e0811a1, 0xf7537e82, 0xbd3af235, 0x2ad7d2bb, 0xeb86d391]

/-- The MD5 per-step rotation amounts. -/
def md5S : List ℕ :=
  [7, 12, 17, 22, 7, 12, 17, 22, 7, 12, 17, 22, 7, 12, 17, 22,
   5, 9, 14, 20, 5, 9, 14, 20, 5, 9, 14, 20, 5, 9, 14, 20,
   4, 11, 16, 23, 4, 11, 16, 23, 4, 11, 16, 23, 4, 11, 16, 23,
   6, 10, 15, 21, 6, 10, 15, 21, 6, 10, 15, 21, 6, 10, 15, 21]

/-- The MD5 round functions F, G, H, I, selected by step index;
32-bit complement is XOR with `0xffffffff`. -/
def md5F (b c d i : ℕ) : ℕ :=
  if i < 16 then (b &&& c) ||| ((b ^^^ 0xffffffff) &&& d)
  else if i < 32 then (d &&& b) ||| ((d ^^^ 0xffffffff) &&& c)
  else if i < 48 then b ^^^ c ^^^ d
  else c ^^^ (b ||| (d ^^^ 0xffffffff))

/-- The MD5 message-word schedule. -/
def md5G (i : ℕ) : ℕ :=
  if i < 16 then i
  else if i < 32 then (5 * i + 1) % 16
  else if i < 48 then (3 * i + 5) % 16
  else (7 * i) % 16

/-- One MD5 step on the state `(a, b, c, d)`. -/
def md5Round (M : List ℕ) (st : ℕ × ℕ × ℕ × ℕ) (i : ℕ) : ℕ × ℕ × ℕ × ℕ :=
  let a := st.1
  let b := st.2.1
  let c := st.2.2.1
  let d := st.2.2.2
  let tmp := (a + md5F b c d i + md5K.getD i 0 + M.getD (md5G i) 0) % 2 ^ 32
  (d, (b + rotl32 tmp (md5S.getD i 0)) % 2 ^ 32, b, c)

/-- The 16 little-endian 32-bit words of a 64-byte block. -/
def wordsOfBlock (blk : List ℕ) : List ℕ :=
  (List.range 16).map (fun j =>
    blk.getD (4 * j) 0 + 256 * (blk.getD (4 * j + 1) 0 +
      256 * (blk.getD (4 * j + 2) 0 + 256 * blk.getD (4 * j + 3) 0)))

/-- MD5 compression of one 64-byte block. -/
def md5CompressBlock (st : ℕ × ℕ × ℕ × ℕ) (blk : List ℕ) : ℕ × ℕ × ℕ × ℕ :=
  let M := wordsOfBlock blk
  let r := (List.range 64).foldl (md5Round M) st
  ((st.1 + r.1) % 2 ^ 32, (st.2.1 + r.2.1) % 2 ^ 32,
    (st.2.2.1 + r.2.2.1) % 2 ^ 32, (st.2.2.2 + r.2.2.2) % 2 ^ 32)

/-- MD5 padding: `0x80`, zeros to 56 mod 64, then the bit length as a
little-endian 64-bit quantity. -/
def padMD5 (msg : List ℕ) : List ℕ :=
  msg ++ [0x80] ++ List.replicate ((119 - msg.length % 64) % 64) 0 ++
    leBytes 8 ((8 * msg.length) % 2 ^ 64)

/-- Split a byte list into 64-byte blocks (fuel-driven; called with
`fuel = length`, sufficient since every step consumes input). -/
def splitBlocks : ℕ → List ℕ → List (List ℕ)
  | 0, _ => []
  | _, [] => []
  | f + 1, l => l.take 64 :: splitBlocks f (l.drop 64)

/-- The MD5 state after digesting a string. -/
def md5Digest (s : String) : ℕ × ℕ × ℕ × ℕ :=
  let msg := padMD5 (strBytes s)
  (splitBlocks msg.length msg).foldl md5CompressBlock
    (0x67452301, 0xefcdab89, 0x98badcfe, 0x10325476)

/-- `int(hashlib.md5(w.encode("utf-8")).hexdigest(), 16)`: the digest
bytes (each state word serialized little-endian) read as a big-endian
128-bit integer. -/
def md5Int (s : String) : ℕ :=
  let st := md5Digest s
  (leBytes 4 st.1 ++ leBytes 4 st.2.1 ++ leBytes 4 st.2.2.1 ++ leBytes 4 st.2.2.2).foldl
    (fun acc b => acc * 256 + b) 0

/-! # SimHash (ingest_offline.py, simhash) -/

/-- A character matched by `[\w\-]` of the simhash token regex
(ASCII model of `\w`). -/
def isSimChar (c : Char) : Bool :=
  isWordChar c || c == '-'

/-- Trim `-` characters from both ends of a run. -/
def trimDash (l : List Char) : List Char :=
  ((l.dropWhile (fun c => c == '-')).reverse.dropWhile (fun c => c == '-')).reverse

/-- The tokens of `re.findall(r"\b[\w\-]+\b", text.lower())` used by
`simhash` (ingest_offline.py line 71): each maximal run of word
characters and hyphens, trimmed of hyphens at both ends (the word
boundaries force the match to start and end on a word character), empty
results dropped.  This is *not* the canonical `tokenize`. -/
def simTokens (s : String) : List String :=
  (((runsBy isSimChar (s.data.map Char.toLower)).map trimDash).filter
    (fun r => !r.isEmpty)).map List.asString

/-- One token's contribution to the 64 accumulators: `+1` where the MD5
bit is set, `-1` elsewhere (the inner loop of `simhash`). -/
def simhashStep (v : List ℤ) (w : String) : List ℤ :=
  (List.range 64).map (fun i => v.getD i 0 + (if (md5Int w >>> i) % 2 = 1 then 1 else -1))

/-- `simhash(text)` from ingest_offline.py lines 70-82: tokenize with the
hyphen-aware regex, return 0 when there are no tokens, otherwise
accumulate signed MD5 bits per position and set output bit `i` iff the
accumulator is `≥ 0`. -/
def simhash (s : String) : ℕ :=
  let tokens := simTokens s
  if tokens.isEmpty then 0
  else
    let v := tokens.foldl simhashStep (List.replicate 64 0)
    (List.range 64).foldl (fun out i => if 0 ≤ v.getD i 0 then out ||| (1 <<< i) else out) 0

/-- The accumulator value `v[i]` as the claim states it: the sum over
tokens of `±1` according to bit `i` of the token's MD5. -/
def simhashBitSum (toks : List String) (i : ℕ) : ℤ :=
  (toks.map (fun w => if (md5Int w >>> i) % 2 = 1 then (1 : ℤ) else -1)).sum

/-- The claim's closed form of the SimHash of a token list: bit `i` is 1
iff `v[i] ≥ 0`. -/
def simhashFormula (toks : List String) : ℕ :=
  ((List.range 64).map (fun i => if 0 ≤ simhashBitSum toks i then 2 ^ i else 0)).sum

/-- The SimHash exactly as claim C4 specifies it: over the canonical
`tokenize` and with no empty-token guard. -/
def simhashClaimSpec (s : String) : ℕ :=
  simhashFormula (tokenize s)

/-- `hamming(a, b)` from ingest_offline.py: popcount of XOR. -/
def hamming (a b : ℕ) : ℕ :=
  (Nat.bits (a ^^^ b)).count true

/-! # SHA-256 (hashlib.sha256, used by chunk_sha256 in ingest_offline.py)

A full embedding of FIPS 180-4 over `ℕ` with explicit `% 2 ^ 32`;
validated against the standard test vectors. -/

/-- Big-endian byte serialization of `x` on `k` bytes. -/
def beBytes (k x : ℕ) : List ℕ :=
  (leBytes k x).reverse

/-- 32-bit right rotation. -/
def rotr32 (x s : ℕ) : ℕ :=
  ((x >>> s) ||| (x <<< (32 - s))) % 2 ^ 32

/-- The SHA-256 round constant table (FIPS 180-4 Section 4.2.2; the
first 32 bits of the fractional parts of the cube roots of the first
64 primes), written as decimal numerals. -/
def shaK : List ℕ :=
  [1116352408, 1899447441, 3049323471, 3921009573, 961987163, 1508970993, 2453635748, 2870763221,
   3624381080, 310598401, 607225278, 1426881987, 1925078388, 2162078206, 2614888103, 3248222580,
   3835390401, 4022224774, 264347078, 604807628, 770255983, 1249150122, 1555081692, 1996064986,
   2554220882, 2821834349, 2952996808, 3210313671, 3336571891, 3584528711, 113926993, 338241895,
   666307205, 773529912, 1294757372, 1396182291, 1695183700, 1986661051, 2177026350, 2456956037,
   2730485921, 2820302411, 3259730800, 3345764771, 3516065817, 3600352804, 4094571909, 275423344,
   430227734, 506948616, 659060556, 883997877, 958139571, 1322822218, 1537002063, 1747873779,
   1955562222, 2024104815, 2227730452, 2361852424, 2428436474, 2756734187, 3204031479, 3329325298]

/-- SHA-256 padding: `0x80`, zeros to 56 mod 64, then the bit length as
a big-endian 64-bit quantity. -/
def shaPad (msg : List ℕ) : List ℕ :=
  msg ++ [0x80] ++ List.replicate ((119 - msg.length % 64) % 64) 0 ++
    beBytes 8 ((8 * msg.length) % 2 ^ 64)

/-- Big-endian 32-bit word `j` of a 64-byte block. -/
def beWord (blk : List ℕ) (j : ℕ) : ℕ :=
  blk.getD (4 * j + 3) 0 + 256 * (blk.getD (4 * j + 2) 0 +
    256 * (blk.getD (4 * j + 1) 0 + 256 * blk.getD (4 * j) 0))

/-- One step of the SHA-256 message-schedule expansion. -/
def shaSchedStep (w : List ℕ) (t : ℕ) : List ℕ :=
  let n := w.length
  let w15 := w.getD (n - 15) 0
  let w2 := w.getD (n - 2) 0
  let s0 := rotr32 w15 7 ^^^ rotr32 w15 18 ^^^ (w15 >>> 3)
  let s1 := rotr32 w2 17 ^^^ rotr32 w2 19 ^^^ (w2 >>> 10)
  let _ := t
  w ++ [(w.getD (n - 16) 0 + s0 + w.getD (n - 7) 0 + s1) % 2 ^ 32]

/-- The 64-word message schedule of a block. -/
def shaSchedule (blk : List ℕ) : List ℕ :=
  (List.range 48).foldl shaSchedStep ((List.range 16).map (beWord blk))

/-- The eight 32-bit working variables of SHA-256. -/
structure Sha256State where
  a : ℕ
  b : ℕ
  c : ℕ
  d : ℕ
  e : ℕ
  f : ℕ
  g : ℕ
  h : ℕ

/-- One SHA-256 round. -/
def shaRound (w : List ℕ) (st : Sha256State) (t : ℕ) : Sha256State :=
  let S1 := rotr32 st.e 6 ^^^ rotr32 st.e 11 ^^^ rotr32 st.e 25
  let ch := (st.e &&& st.f) ^^^ ((st.e ^^^ 0xffffffff) &&& st.g)
  let t1 := (st.h + S1 + ch + shaK.getD t 0 + w.getD t 0) % 2 ^ 32
  let S0 := rotr32 st.a 2 ^^^ rotr32 st.a 13 ^^^ rotr32 st.a 22
  let mj := (st.a &&& st.b) ^^^ (st.a &&& st.c) ^^^ (st.b &&& st.c)
  let t2 := (S0 + mj) % 2 ^ 32
  ⟨(t1 + t2) % 2 ^ 32, st.a, st.b, st.c, (st.d + t1) % 2 ^ 32, st.e, st.f, st.g⟩

/-- SHA-256 compression of one 64-byte block. -/
def shaCompress (st : Sha256State) (blk : List ℕ) : Sha256State :=
  let w := shaSchedule blk
  let r := (List.range 64).foldl (shaRound w) st
  ⟨(st.a + r.a) % 2 ^ 32, (st.b + r.b) % 2 ^ 32, (st.c + r.c) % 2 ^ 32, (st.d + r.d) % 2 ^ 32,
   (st.e + r.e) % 2 ^ 32, (st.f + r.f) % 2 ^ 32, (st.g + r.g) % 2 ^ 32, (st.h + r.h) % 2 ^ 32⟩

/-- The SHA-256 initial state. -/
def sha256Init : Sha256State :=
  ⟨0x6a09e667, 0xbb67ae85, 0x3c6ef372, 0xa54ff53a, 0x510e527f, 0x9b05688c, 0x1f83d9ab, 0x5be0cd19⟩

/-- The SHA-256 digest of a string's UTF-8 bytes as a 256-bit integer
(big-endian concatenation of the final state words). -/
def sha256Int (s : String) : ℕ :=
  let msg := shaPad (strBytes s)
  let st := (splitBlocks msg.length msg).foldl shaCompress sha256Init
  ((((((st.a * 2 ^ 32 + st.b) * 2 ^ 32 + st.c) * 2 ^ 32 + st.d) * 2 ^ 32 + st.e) * 2 ^ 32 +
    st.f) * 2 ^ 32 + st.g) * 2 ^ 32 + st.h

/-- Lowercase hex digit. -/
def hexDigit (n : ℕ) : Char :=
  if n < 10 then Char.ofNat (48 + n) else Char.ofNat (87 + n)

/-- `k` lowercase hex digits of `x`, most significant first. -/
def hexChars : ℕ → ℕ → List Char
  | 0, _ => []
  | k + 1, x => hexChars k (x / 16) ++ [hexDigit (x % 16)]

/-- `chunk_sha256(text)` from ingest_offline.py lines 67-68:
`hashlib.sha256(text.encode("utf-8")).hexdigest()`. -/
def chunk_sha256 (s : String) : String :=
  (hexChars 64 (sha256Int s)).asString

/-! # normalize_for_hash (ingest_offline.py, lines 58-65)

The boilerplate regex `(^\s*page\s+\d+\s*$)|(^\s*confidential\s*$)`
with `re.I | re.M` is modelled per line: a line wholly matching either
alternative is replaced by a single space.  (A match of the Python
regex can only differ from the per-line model by absorbing adjacent
whitespace, including newlines inside `\s*`/`\s+` spans; every such
difference is erased by the subsequent whitespace collapse, except for
boilerplate split across lines, which no claim exercises.)  After the
substitution the text is lowercased, whitespace runs are collapsed to
one space, and the result is stripped. -/

/-- A character of the regex class `\s` (ASCII model). -/
def isSpaceChar (c : Char) : Bool :=
  c == ' ' || c == '\t' || c == '\n' || c == '\r' || c == '\x0b' || c == '\x0c'

/-- A character of the regex class `\d` (ASCII model). -/
def isDigitChar (c : Char) : Bool :=
  '0' ≤ c && c ≤ '9'

/-- Split a character list on newline characters. -/
def splitNl : List Char → List (List Char)
  | [] => [[]]
  | c :: cs =>
    let r := splitNl cs
    if c = '\n' then [] :: r
    else (c :: r.headD []) :: r.tail

/-- Join lines with newline characters. -/
def joinNl : List (List Char) → List Char
  | [] => []
  | [l] => l
  | l :: ls => l ++ '\n' :: joinNl ls

/-- Whether a line wholly matches `^\s*page\s+\d+\s*$` (case-insensitive). -/
def isPageLine (l : List Char) : Bool :=
  let l1 := (l.map Char.toLower).dropWhile isSpaceChar
  if headMatch ['p', 'a', 'g', 'e'] l1 then
    let r1 := l1.drop 4
    let r2 := r1.dropWhile isSpaceChar
    let r3 := r2.dropWhile isDigitChar
    decide (r2.length < r1.length) && decide (r3.length < r2.length) && (r3.dropWhile isSpaceChar).isEmpty
  else false

/-- Whether a line wholly matches `^\s*confidential\s*$` (case-insensitive). -/
def isConfLine (l : List Char) : Bool :=
  let l1 := (l.map Char.toLower).dropWhile isSpaceChar
  if headMatch ['c', 'o', 'n', 'f', 'i', 'd', 'e', 'n', 't', 'i', 'a', 'l'] l1 then
    ((l1.drop 12).dropWhile isSpaceChar).isEmpty
  else false

/-- A line matching either boilerplate alternative. -/
def isBoilerLine (l : List Char) : Bool :=
  isPageLine l || isConfLine l

/-- Collapse every maximal whitespace run to a single space
(`re.sub(r"\s+", " ", t)`); the flag tracks whether the previous
character was whitespace. -/
def collapseWsAux : Bool → List Char → List Char
  | _, [] => []
  | lastSp, c :: cs =>
    if isSpaceChar c then
      if lastSp then collapseWsAux true cs else ' ' :: collapseWsAux true cs
    else c :: collapseWsAux false cs

/-- `re.sub(r"\s+", " ", t)`. -/
def collapseWs (l : List Char) : List Char :=
  collapseWsAux false l

/-- Python `str.strip()` (ASCII whitespace model). -/
def stripChars (l : List Char) : List Char :=
  ((l.dropWhile isSpaceChar).reverse.dropWhile isSpaceChar).reverse

/-- `normalize_for_hash(text)` from ingest_offline.py lines 61-65. -/
def normalize_for_hash (s : String) : String :=
  let replaced := joinNl ((splitNl s.data).map (fun l => if isBoilerLine l then [' '] else l))
  (stripChars (collapseWs (replaced.map Char.toLower))).asString

/-! # Ingest dedup pipeline (ingest_offline.py, main, lines 284-326)

The per-run chunk loop of `main`, modelled as a fold over the chunks in
processing order (all collections and files flattened, since the dedup
caches are created once before the collection loop and never reset).
The walking/chunking that produces the chunks, and `derive_hierarchy`
(hierarchy.py, not part of the sources), are treated as the input;
`utc_now()` is the explicit timestamp parameter `t`.  Chroma/Whoosh
writes are represented by the list of stored records. -/

/-- One chunk as it reaches the dedup loop. -/
structure ChunkIn where
  app : String
  source_path : String
  title : String
  seq_idx : ℕ
  body : String
deriving DecidableEq

/-- The metadata record built for a stored chunk (the hierarchy fields
of `derive_hierarchy`, identical across runs for the same file, are
omitted). -/
structure MetaRec where
  app : String
  source_path : String
  section_title : String
  seq_idx : ℕ
  ingested_at : String
  hash : String
  simhash : ℕ
deriving DecidableEq

/-- A stored chunk: its cid, its body text (`contents` in the JSONL
record, the embedding payload) and its metadata. -/
structure StoredRec where
  cid : String
  contents : String
  meta : MetaRec
deriving DecidableEq

/-- What happened to one chunk in the dedup loop. -/
inductive Outcome where
  | stored (cid : String)
  | skippedEmpty
  | skippedExact
  | skippedNear
deriving DecidableEq

/-- The dedup caches and counters, created once per run and shared
across all collections and apps. -/
structure IngestState where
  seenHashes : List String
  seenSim : List ℕ
  exactCt : ℕ
  nearCt : ℕ

/-- `piece = (ch["body"] or "").strip()`. -/
def chunkPiece (c : ChunkIn) : String :=
  (stripChars c.body.data).asString

/-- The exact-dedup hash of a chunk. -/
def chunkHid (c : ChunkIn) : String :=
  chunk_sha256 (normalize_for_hash (chunkPiece c))

/-- The SimHash of a chunk's normalized body. -/
def chunkSim (c : ChunkIn) : ℕ :=
  simhash (normalize_for_hash (chunkPiece c))

/-- One iteration of the chunk loop: skip whitespace-only bodies before
dedup; then exact dedup on the SHA-256 of the normalized body; then
near dedup against every previously retained SimHash; otherwise store
with `cid = "h:" + hash` and metadata stamped with the run time `t`. -/
def processChunk (t : String) (st : IngestState) (c : ChunkIn) :
    IngestState × Outcome × Option StoredRec :=
  if (chunkPiece c).isEmpty then (st, Outcome.skippedEmpty, none)
  else
    let hid := chunkHid c
    if st.seenHashes.contains hid then
      ({ st with exactCt := st.exactCt + 1 }, Outcome.skippedExact, none)
    else
      let sh := chunkSim c
      if st.seenSim.any (fun prev => hamming sh prev ≤ 3) then
        ({ st with nearCt := st.nearCt + 1 }, Outcome.skippedNear, none)
      else
        let cid := "h:" ++ hid
        ({ st with seenHashes := hid :: st.seenHashes, seenSim := sh :: st.seenSim },
          Outcome.stored cid,
          some ⟨cid, chunkPiece c,
            ⟨c.app, c.source_path, c.title, c.seq_idx, t, hid, sh⟩⟩)

/-- The chunk loop: thread the state, record one outcome per chunk and
collect the stored records in order. -/
def ingestFold (t : String) (st : IngestState) :
    List ChunkIn → IngestState × List Outcome × List StoredRec
  | [] => (st, [], [])
  | c :: cs =>
    let s1 := processChunk t st c
    let s2 := ingestFold t s1.1 cs
    (s2.1, s1.2.1 :: s2.2.1,
      match s1.2.2 with
      | some r => r :: s2.2.2
      | none => s2.2.2)

/-- The empty dedup caches at the start of a run. -/
def initState : IngestState :=
  ⟨[], [], 0, 0⟩

/-- Per-chunk outcomes of one ingestion run at time `t`. -/
def ingestOutcomes (t : String) (chunks : List ChunkIn) : List Outcome :=
  (ingestFold t initState chunks).2.1

/-- Stored records of one ingestion run at time `t`. -/
def ingestStored (t : String) (chunks : List ChunkIn) : List StoredRec :=
  (ingestFold t initState chunks).2.2

/-- The cids emitted by one ingestion run. -/
def ingestCids (t : String) (chunks : List ChunkIn) : List String :=
  (ingestStored t chunks).map StoredRec.cid

/-- A metadata record with the timestamp field cleared. -/
def eraseTime (m : MetaRec) : MetaRec :=
  { m with ingested_at := "" }

/-- A stored record with the timestamp field cleared. -/
def eraseTimeRec (r : StoredRec) : StoredRec :=
  { r with meta := eraseTime r.meta }

/-- The per-app JSONL corpus file after one run: `get_jsonl_writer`
opens the file in append mode (`"a"`, ingest_offline.py line 171), so
the run's records for the app are appended to whatever the file already
contains. -/
def jsonlAfterRun (init : String → List StoredRec) (t : String) (chunks : List ChunkIn) :
    String → List StoredRec :=
  fun a => init a ++ (ingestStored t chunks).filter (fun r => r.meta.app == a)

/-! # MMR selection and the tail of retrieve
(hybrid_retrieval_api.py, mmr lines 69-84 and retrieve lines 287-348)

The numeric inputs of the selection logic — the cosine similarity of
each candidate to the query and the pairwise candidate similarities the
code computes with numpy float arithmetic — are abstracted as given
score functions `simq` and `pairSim` over candidate indices (floating
point is not modelled; every claim proved below holds for *all* score
values, hence for the values the float code produces).  The selection
logic itself — blending, argsort, shortlist, the MMR loop with its
argmax and pops — is embedded faithfully. -/

/-- `np.argmax` scan: current best index, best value, next index.  The
strict comparison keeps the first maximal element, as numpy does. -/
def argmaxAux : List ℚ → ℕ → ℚ → ℕ → ℕ
  | [], bi, _, _ => bi
  | x :: xs, bi, bv, i => if bv < x then argmaxAux xs i x (i + 1) else argmaxAux xs bi bv (i + 1)

/-- `int(np.argmax(scores))`: the position of the first maximal score
(0 on an empty list, which the code never queries). -/
def argmaxIdx : List ℚ → ℕ
  | [] => 0
  | x :: xs => argmaxAux xs 0 x 1

/-- Insertion step for sorting indices by descending score. -/
def insertIdxDesc (f : ℕ → ℚ) (i : ℕ) : List ℕ → List ℕ
  | [] => [i]
  | j :: js => if f j < f i then i :: j :: js else j :: insertIdxDesc f i js

/-- `np.argsort(-blended)`: the indices `0..n-1` sorted by descending
score.  (numpy's default sort is unstable, so the order of tied scores
is unspecified; every property proved below is independent of tie
order.) -/
def argsortDesc (f : ℕ → ℚ) (n : ℕ) : List ℕ :=
  (List.range n).foldr (insertIdxDesc f) []

/-- `max over the selected set of the pairwise similarity to `i``
(`sim_div.max(axis=1)` for one row); the code only evaluates this with
a nonempty selection. -/
def maxSel (pairSim : ℕ → ℕ → ℚ) (selected : List ℕ) (i : ℕ) : ℚ :=
  match selected with
  | [] => 0
  | s :: ss => ss.foldl (fun acc s2 => max acc (pairSim i s2)) (pairSim i s)

/-- One pick of the MMR loop: the first iteration takes the argmax of
`sim_q` over the remaining items; later iterations take the argmax of
`0.7·sim_q − 0.3·max_{s ∈ selected} sim(i, s)`. -/
def mmrStep (simq : ℕ → ℚ) (pairSim : ℕ → ℕ → ℚ) (selected rest : List ℕ) : ℕ :=
  if selected.isEmpty then argmaxIdx (rest.map simq)
  else argmaxIdx (rest.map (fun i => (7 / 10 : ℚ) * simq i - (3 / 10) * maxSel pairSim selected i))

/-- The MMR `while` loop: while items remain and fewer than `top_n` are
selected, pop the argmax position from `rest` and append it to
`selected`.  Fuel-driven; each iteration removes one element of `rest`,
so `fuel = |rest|` suffices. -/
def mmrLoop (simq : ℕ → ℚ) (pairSim : ℕ → ℕ → ℚ) (top_n : ℤ) :
    ℕ → List ℕ → List ℕ → List ℕ
  | 0, selected, _ => selected
  | fuel + 1, selected, rest =>
    if rest.isEmpty || decide (top_n ≤ (selected.length : ℤ)) then selected
    else
      let p := mmrStep simq pairSim selected rest
      mmrLoop simq pairSim top_n fuel (selected ++ [rest.getD p 0]) (rest.eraseIdx p)

/-- `mmr(candidate_vecs, query_vec, top_n, lam=0.7)` over `n`
candidates, with the similarity computations abstracted as `simq` and
`pairSim`: returns the selected positions in selection order. -/
def mmr (n : ℕ) (simq : ℕ → ℚ) (pairSim : ℕ → ℕ → ℚ) (top_n : ℤ) : List ℕ :=
  mmrLoop simq pairSim top_n n [] (List.range n)

/-- The candidate-building loop of `retrieve` (lines 287-298): walk the
fused pairs in order, keep ids the store can hydrate (ids returned by
the vector query, or fetched from Chroma by id — both modelled by the
`store` lookup), pairing each id with its document text, and stop once
`max(pool, top_k*6)` candidates are collected. -/
def candList (fused : List (String × ℚ)) (store : String → Option String) (cap : ℤ) :
    List (String × String) :=
  (fused.filterMap (fun p => (store p.1).map (fun d => (p.1, d)))).take cap.toNat

/-- The blended relevance of shortlist construction:
`0.8 * sim + 0.2 * coverage` (line 330), with the float cosine `sim`
abstracted as `simq`. -/
def blendedScore (filt : List ((String × String) × ℚ)) (simq : ℕ → ℚ) (i : ℕ) : ℚ :=
  (4 / 5 : ℚ) * simq i + (1 / 5) * (filt.getD i (("", ""), 0)).2

/-- The shortlist `np.argsort(-blended)[:max(top_k*3, 16)]` (line 333). -/
def shortlist (filt : List ((String × String) × ℚ)) (simq : ℕ → ℚ) (top_k : ℤ) : List ℕ :=
  (argsortDesc (blendedScore filt simq) filt.length).take (max (top_k * 3) 16).toNat

/-- `keep_idx = [int(order[i]) for i in mmr(cand_vecs[order], qv, top_n=min(top_k, len(order)))]`
(lines 334-335): MMR runs over the shortlist, so its similarity inputs
are reindexed through `order`, and the selected shortlist positions are
mapped back to candidate indices. -/
def keepIdx (filt : List ((String × String) × ℚ)) (simq : ℕ → ℚ)
    (pairSim : ℕ → ℕ → ℚ) (top_k : ℤ) : List ℕ :=
  let order := shortlist filt simq top_k
  (mmr order.length (fun i => simq (order.getD i 0))
    (fun i j => pairSim (order.getD i 0) (order.getD j 0))
    (min top_k (order.length : ℤ))).map (fun i => order.getD i 0)

/-- The result ids of `retrieve` after fusion (lines 273-348): early
empty return when fusion yields nothing; candidate building; the
constraint-filter stage with fallback; blended shortlist; MMR
selection; and the mapping of selected candidate indices to ids. -/
def retrieveResults (rankings : List (List (String × ℕ))) (store : String → Option String)
    (req_terms req_phrases : List String) (min_hits : ℤ) (prox : ℕ)
    (pool top_k : ℤ) (simq : ℕ → ℚ) (pairSim : ℕ → ℕ → ℚ) : List String :=
  let fused := rrf_union rankings 60
  if fused.isEmpty then []
  else
    let filt := filterStage (candList fused store (max pool (top_k * 6)))
      req_terms req_phrases min_hits prox
    (keepIdx filt simq pairSim top_k).map (fun i => (filt.getD i (("", ""), 0)).1.1)

/-! ## Dense embedder normalization

`Embedder.embed_list` (ingest_offline.py lines 151-156) applies the
fitted TF-IDF / SVD pipeline and divides each row of the resulting
matrix by `np.linalg.norm(arr, axis=1, keepdims=True) + 1e-9`;
`_pipe_transform` (hybrid_retrieval_api.py lines 58-64) performs the
same per-row division at query time. A row is modelled as a `List ℝ`
and the float literal `1e-9` as the real `1 / 1000000000`. -/

/-- Sum of squares of a row's entries: the square of `np.linalg.norm(row)`. -/
noncomputable def sqNorm (v : List ℝ) : ℝ := (v.map (fun x => x ^ 2)).sum

/-- The Euclidean norm `np.linalg.norm(row)` of a row. -/
noncomputable def l2norm (v : List ℝ) : ℝ := Real.sqrt (sqNorm v)

/-- One row of `arr / norms` in `Embedder.embed_list` (line 155) and of
`m / n` in `_pipe_transform` (line 64): each entry divided by the row's
norm plus `1e-9`. -/
noncomputable def normalizeRow (m : List ℝ) : List ℝ :=
  m.map (fun x => x / (l2norm m + 1 / 1000000000))

/-! # Theorems -/

/-- C7 (counterexample): the claim says `signal` accepts exactly
`hybrid`, `dense`, `sparse`; but the code's validator rejects `dense`
and `sparse` and accepts `bm25` and `vector`. -/
theorem C7_counterexample :
    acceptsSignal "dense" = false ∧ acceptsSignal "sparse" = false ∧
      acceptsSignal "bm25" = true ∧ acceptsSignal "vector" = true := by
  decide

/-- C7 (amended): the `signal` parameter is validated against the regex
`^(hybrid|bm25|vector)$`, hence accepts exactly the values `hybrid`,
`bm25` and `vector`; any other value is rejected as malformed. -/
theorem C7_signal_values (s : String) :
    acceptsSignal s = true ↔ (s = "hybrid" ∨ s = "bm25" ∨ s = "vector") := by
  simp [acceptsSignal, regexFullMatch, signalPattern]

theorem lookup_addScore (acc : List (String × ℚ)) (c : String) (x : ℚ) (c' : String) :
    (addScore acc c x).lookup c' =
      if c' = c then some (((acc.lookup c').getD 0) + x) else acc.lookup c' := by
  induction acc with
  | nil =>
    by_cases h : c' = c
    · simp [addScore, List.lookup, beq_iff_eq.mpr h, h]
    · simp [addScore, List.lookup, beq_eq_false_iff_ne.mpr h, h]
  | cons p rest ih =>
    obtain ⟨k, v⟩ := p
    by_cases hk : k = c
    · subst hk
      by_cases h : c' = k
      · simp [addScore, List.lookup, beq_iff_eq.mpr h, h]
      · simp [addScore, List.lookup, beq_eq_false_iff_ne.mpr h, h]
    · by_cases h : c' = k
      · have hne : ¬ c' = c := by rw [h]; exact hk
        simp [addScore, hk, List.lookup, beq_iff_eq.mpr h, hne]
      · simp [addScore, hk, List.lookup, beq_eq_false_iff_ne.mpr h, h, ih]

theorem mem_keys_addScore (acc : List (String × ℚ)) (c : String) (x : ℚ) (a : String) :
    a ∈ (addScore acc c x).map Prod.fst ↔ a ∈ acc.map Prod.fst ∨ a = c := by
  induction acc with
  | nil => simp [addScore]
  | cons p rest ih =>
    obtain ⟨k, v⟩ := p
    by_cases hk : k = c
    · subst hk
      have he : addScore ((k, v) :: rest) k x = (k, v + x) :: rest := by
        simp [addScore]
      rw [he]
      simp only [List.map_cons, List.mem_cons]
      tauto
    · simp only [addScore, hk, if_false, List.map_cons, List.mem_cons]
      rw [ih]
      tauto

theorem nodupKeys_addScore (acc : List (String × ℚ)) (c : String) (x : ℚ)
    (h : (acc.map Prod.fst).Nodup) : ((addScore acc c x).map Prod.fst).Nodup := by
  induction acc with
  | nil => simp [addScore]
  | cons p rest ih =>
    obtain ⟨k, v⟩ := p
    simp only [List.map_cons, List.nodup_cons] at h
    by_cases hk : k = c
    · subst hk
      simpa [addScore] using h
    · simp only [addScore, hk, if_false, List.map_cons, List.nodup_cons]
      refine ⟨?_, ih h.2⟩
      rw [mem_keys_addScore]
      rintro (hm | hm)
      · exact h.1 hm
      · exact hk hm

theorem lookup_eq_none_of_keys {β : Type} (l : List (String × β)) (c : String)
    (h : c ∉ l.map Prod.fst) : l.lookup c = none := by
  induction l with
  | nil => rfl
  | cons p rest ih =>
    obtain ⟨a, v⟩ := p
    simp only [List.map_cons, List.mem_cons] at h
    push_neg at h
    simp [List.lookup, beq_eq_false_iff_ne.mpr h.1, ih h.2]

theorem lookup_rrfStepMap (k : ℕ) (m : List (String × ℕ))
    (hm : (m.map Prod.fst).Nodup) (acc : List (String × ℚ)) (c : String) :
    (rrfStepMap k acc m).lookup c =
      match m.lookup c with
      | some r => some ((acc.lookup c).getD 0 + 1 / ((k : ℚ) + r))
      | none => acc.lookup c := by
  induction m generalizing acc with
  | nil => rfl
  | cons p rest ih =>
    obtain ⟨a, r⟩ := p
    simp only [List.map_cons, List.nodup_cons] at hm
    have hstep : rrfStepMap k acc ((a, r) :: rest) =
        rrfStepMap k (addScore acc a (1 / ((k : ℚ) + r))) rest := rfl
    rw [hstep, ih hm.2]
    by_cases hc : c = a
    · subst hc
      have h1 : rest.lookup c = none := by
        apply lookup_eq_none_of_keys
        exact hm.1
      have h2 : List.lookup c ((c, r) :: rest) = some r := by
        simp [List.lookup]
      rw [h2]
      cases hrest : rest.lookup c with
      | none =>
        rw [lookup_addScore]
        simp
      | some r2 => exact absurd hrest (by simp [h1])
    · have h2 : List.lookup c ((a, r) :: rest) = rest.lookup c := by
        simp [List.lookup, beq_eq_false_iff_ne.mpr hc]
      rw [h2, lookup_addScore]
      simp [hc]

theorem getD_foldl_rrfStepMap (k : ℕ) (rankings : List (List (String × ℕ)))
    (h : ∀ m ∈ rankings, (m.map Prod.fst).Nodup) (acc : List (String × ℚ)) (c : String) :
    ((rankings.foldl (rrfStepMap k) acc).lookup c).getD 0 =
      (acc.lookup c).getD 0 + rrfScore rankings k c := by
  induction rankings generalizing acc with
  | nil => simp [rrfScore]
  | cons m ms ih =>
    have hm := h m (by simp)
    have hms : ∀ m2 ∈ ms, (m2.map Prod.fst).Nodup := fun m2 hm2 => h m2 (by simp [hm2])
    simp only [List.foldl_cons]
    rw [ih hms]
    have hscore : rrfScore (m :: ms) k c =
        (match m.lookup c with
          | some r => 1 / ((k : ℚ) + r)
          | none => 0) + rrfScore ms k c := by
      simp [rrfScore]
    rw [hscore, lookup_rrfStepMap k m hm]
    cases hl : m.lookup c with
    | none => simp
    | some r => simp [add_assoc]

theorem isSome_foldl_rrfStepMap (k : ℕ) (rankings : List (List (String × ℕ)))
    (h : ∀ m ∈ rankings, (m.map Prod.fst).Nodup) (acc : List (String × ℚ)) (c : String) :
    ((rankings.foldl (rrfStepMap k) acc).lookup c).isSome =
      ((acc.lookup c).isSome || appearsIn rankings c) := by
  induction rankings generalizing acc with
  | nil => simp [appearsIn]
  | cons m ms ih =>
    have hm := h m (by simp)
    have hms : ∀ m2 ∈ ms, (m2.map Prod.fst).Nodup := fun m2 hm2 => h m2 (by simp [hm2])
    simp only [List.foldl_cons]
    rw [ih hms]
    have happ : appearsIn (m :: ms) c = ((m.lookup c).isSome || appearsIn ms c) := by
      simp [appearsIn]
    rw [happ, lookup_rrfStepMap k m hm]
    cases hl : m.lookup c with
    | none => simp
    | some r => simp

theorem lookup_rrfAccum (k : ℕ) (rankings : List (List (String × ℕ)))
    (h : ∀ m ∈ rankings, (m.map Prod.fst).Nodup) (c : String) :
    (rrfAccum rankings k).lookup c =
      if appearsIn rankings c then some (rrfScore rankings k c) else none := by
  have hA := getD_foldl_rrfStepMap k rankings h [] c
  have hB := isSome_foldl_rrfStepMap k rankings h [] c
  simp only [List.lookup] at hA hB
  unfold rrfAccum
  by_cases happ : appearsIn rankings c
  · simp only [happ, if_true]
    simp only [Option.getD, Option.isSome, happ, Bool.or_true] at hA hB
    cases hl : (rankings.foldl (rrfStepMap k) []).lookup c with
    | none => rw [hl] at hB; simp at hB
    | some v =>
      rw [hl] at hA
      simp at hA
      rw [hA]
  · simp only [happ, if_false]
    have : appearsIn rankings c = false := by
      simpa using happ
    rw [this] at hB
    simp only [Bool.or_false] at hB
    cases hl : (rankings.foldl (rrfStepMap k) []).lookup c with
    | none => rfl
    | some v => rw [hl] at hB; simp at hB

theorem perm_insertDesc (x : String × ℚ) (l : List (String × ℚ)) :
    (insertDesc x l).Perm (x :: l) := by
  induction l with
  | nil => simp [insertDesc]
  | cons y ys ih =>
    by_cases h : y.2 ≤ x.2
    · simp [insertDesc, h]
    · simp only [insertDesc, h, if_false]
      exact (ih.cons y).trans (List.Perm.swap x y ys)

theorem perm_sortDesc (l : List (String × ℚ)) : (sortDesc l).Perm l := by
  induction l with
  | nil => simp [sortDesc]
  | cons x xs ih =>
    exact (perm_insertDesc x (sortDesc xs)).trans (ih.cons x)

theorem pairwise_insertDesc (x : String × ℚ) (l : List (String × ℚ))
    (h : l.Pairwise (fun a b => b.2 ≤ a.2)) :
    (insertDesc x l).Pairwise (fun a b => b.2 ≤ a.2) := by
  induction l with
  | nil => simp [insertDesc]
  | cons y ys ih =>
    rcases List.pairwise_cons.mp h with ⟨hy, hys⟩
    by_cases hle : y.2 ≤ x.2
    · simp only [insertDesc, hle, if_true]
      refine List.pairwise_cons.mpr ⟨?_, h⟩
      intro z hz
      rcases List.mem_cons.mp hz with hz | hz
      · rw [hz]; exact hle
      · exact le_trans (hy z hz) hle
    · simp only [insertDesc, hle, if_false]
      refine List.pairwise_cons.mpr ⟨?_, ih hys⟩
      intro z hz
      have hz2 := (perm_insertDesc x ys).mem_iff.mp hz
      rcases List.mem_cons.mp hz2 with hz2 | hz2
      · rw [hz2]; exact le_of_lt (lt_of_not_le hle)
      · exact hy z hz2

theorem pairwise_sortDesc (l : List (String × ℚ)) :
    (sortDesc l).Pairwise (fun a b => b.2 ≤ a.2) := by
  induction l with
  | nil => simp [sortDesc]
  | cons x xs ih => exact pairwise_insertDesc x (sortDesc xs) ih

theorem lookup_some_mem {β : Type} (l : List (String × β)) (c : String) (v : β)
    (h : l.lookup c = some v) : (c, v) ∈ l := by
  induction l with
  | nil => simp [List.lookup] at h
  | cons p rest ih =>
    obtain ⟨a, w⟩ := p
    by_cases hc : c = a
    · subst hc
      simp only [List.lookup, beq_self_eq_true] at h
      simp only [Option.some.injEq] at h
      simp [h]
    · simp only [List.lookup, beq_eq_false_iff_ne.mpr hc] at h
      exact List.mem_cons_of_mem _ (ih h)

theorem mem_lookup_of_nodup {β : Type} (l : List (String × β)) (c : String) (v : β)
    (hn : (l.map Prod.fst).Nodup) (h : (c, v) ∈ l) : l.lookup c = some v := by
  induction l with
  | nil => simp at h
  | cons p rest ih =>
    obtain ⟨a, w⟩ := p
    simp only [List.map_cons, List.nodup_cons] at hn
    rcases List.mem_cons.mp h with hh | hh
    · have h1 : c = a := congrArg Prod.fst hh
      have h2 : v = w := congrArg Prod.snd hh
      subst h1
      subst h2
      simp [List.lookup]
    · have hca : ¬ c = a := by
        intro hca
        subst hca
        exact hn.1 (List.mem_map.mpr ⟨(c, v), hh, rfl⟩)
      simp only [List.lookup, beq_eq_false_iff_ne.mpr hca]
      exact ih hn.2 hh

theorem lookup_of_perm {β : Type} (l l2 : List (String × β)) (c : String)
    (hp : l.Perm l2) (hn : (l.map Prod.fst).Nodup) : l.lookup c = l2.lookup c := by
  have hn2 : (l2.map Prod.fst).Nodup := ((hp.map Prod.fst).nodup_iff).mp hn
  cases hl : l.lookup c with
  | none =>
    have hc : c ∉ l.map Prod.fst := by
      intro hc
      rcases List.mem_map.mp hc with ⟨⟨a, v⟩, hmem, he⟩
      simp only [] at he
      subst he
      rw [mem_lookup_of_nodup l _ v hn hmem] at hl
      cases hl
    have hc2 : c ∉ l2.map Prod.fst := fun h => hc ((hp.map Prod.fst).mem_iff.mpr h)
    rw [lookup_eq_none_of_keys l2 c hc2]
  | some v =>
    have hmem := lookup_some_mem l c v hl
    exact (mem_lookup_of_nodup l2 c v hn2 (hp.mem_iff.mp hmem)).symm

theorem nodupKeys_rrfStepMap (k : ℕ) (m : List (String × ℕ)) (acc : List (String × ℚ))
    (h : (acc.map Prod.fst).Nodup) : ((rrfStepMap k acc m).map Prod.fst).Nodup := by
  induction m generalizing acc with
  | nil => exact h
  | cons p rest ih =>
    have : rrfStepMap k acc (p :: rest) = rrfStepMap k (rrfStepEntry k acc p) rest := rfl
    rw [this]
    exact ih _ (nodupKeys_addScore _ _ _ h)

theorem nodupKeys_rrfAccum (k : ℕ) (rankings : List (List (String × ℕ))) :
    ((rrfAccum rankings k).map Prod.fst).Nodup := by
  unfold rrfAccum
  suffices hgen : ∀ (acc : List (String × ℚ)), (acc.map Prod.fst).Nodup →
      ((rankings.foldl (rrfStepMap k) acc).map Prod.fst).Nodup by
    exact hgen [] (by simp)
  induction rankings with
  | nil => intro acc h; exact h
  | cons m ms ih =>
    intro acc h
    exact ih _ (nodupKeys_rrfStepMap k m acc h)

/-- C1 (counterexample): the claim requires the pairs sorted by
descending score with ties broken by ascending lexicographic cid.  On
the rank maps `[{b: 1}, {a: 1}]` both cids score `1/61`, but the code's
stable sort keeps dict insertion order, returning `b` before `a`; the
claimed tie-break order is violated. -/
theorem C1_counterexample :
    rrf_union [[("b", 1)], [("a", 1)]] 60 = [("b", 1 / 61), ("a", 1 / 61)] ∧
      ¬ (rrf_union [[("b", 1)], [("a", 1)]] 60).Pairwise
          (fun x y => y.2 < x.2 ∨ (x.2 = y.2 ∧ x.1 < y.1)) := by
  constructor
  · norm_num [rrf_union, rrfAccum, rrfStepMap, rrfStepEntry, addScore, sortDesc, insertDesc]
  · norm_num [rrf_union, rrfAccum, rrfStepMap, rrfStepEntry, addScore, sortDesc, insertDesc,
      List.pairwise_cons]
    decide

/-- C1 (amended): for every list of rank maps (each with pairwise
distinct doc ids, as Python dicts guarantee), `rrf_union` with `k = 60`
assigns each cid appearing in at least one map the score
`Σᵢ 1/(60 + Rᵢ(cid))` (a missing rank contributing 0) and no score to
any other cid, and returns the `(cid, score)` pairs sorted by descending
score with each cid occurring exactly once; ties are kept in order of
first appearance across the rank maps (Python's stable sort over dict
insertion order), not in ascending cid order. -/
theorem C1_rrf_union_amended (rankings : List (List (String × ℕ)))
    (h : ∀ m ∈ rankings, (m.map Prod.fst).Nodup) :
    (∀ cid, (rrf_union rankings 60).lookup cid =
        if appearsIn rankings cid then some (rrfScore rankings 60 cid) else none)
    ∧ (rrf_union rankings 60).Pairwise (fun a b => b.2 ≤ a.2)
    ∧ ((rrf_union rankings 60).map Prod.fst).Nodup := by
  have hperm : (sortDesc (rrfAccum rankings 60)).Perm (rrfAccum rankings 60) :=
    perm_sortDesc _
  have hkeys : ((sortDesc (rrfAccum rankings 60)).map Prod.fst).Nodup :=
    ((hperm.map Prod.fst).nodup_iff).mpr (nodupKeys_rrfAccum 60 rankings)
  refine ⟨?_, ?_, ?_⟩
  · intro cid
    have := lookup_of_perm _ _ cid hperm hkeys
    rw [rrf_union, this, lookup_rrfAccum 60 rankings h cid]
  · exact pairwise_sortDesc _
  · exact hkeys

/-- Witness for C1 at the spec's Scenario D rank maps
`{A:1, B:2, C:3}` and `{B:1, C:2, D:3}`. -/
theorem C1_witness :
    (∀ cid, (rrf_union [[("A", 1), ("B", 2), ("C", 3)], [("B", 1), ("C", 2), ("D", 3)]] 60).lookup cid =
        if appearsIn [[("A", 1), ("B", 2), ("C", 3)], [("B", 1), ("C", 2), ("D", 3)]] cid then
          some (rrfScore [[("A", 1), ("B", 2), ("C", 3)], [("B", 1), ("C", 2), ("D", 3)]] 60 cid)
        else none)
    ∧ (rrf_union [[("A", 1), ("B", 2), ("C", 3)], [("B", 1), ("C", 2), ("D", 3)]] 60).Pairwise
        (fun a b => b.2 ≤ a.2)
    ∧ ((rrf_union [[("A", 1), ("B", 2), ("C", 3)], [("B", 1), ("C", 2), ("D", 3)]] 60).map
        Prod.fst).Nodup :=
  C1_rrf_union_amended [[("A", 1), ("B", 2), ("C", 3)], [("B", 1), ("C", 2), ("D", 3)]] (by decide)

theorem headMatch_iff (n h : List Char) : headMatch n h = true ↔ h.take n.length = n := by
  induction n generalizing h with
  | nil => simp [headMatch]
  | cons a n' ih =>
    cases h with
    | nil => simp [headMatch]
    | cons b h' =>
      simp only [headMatch, Bool.and_eq_true, decide_eq_true_eq, List.length_cons,
        List.take_succ_cons, List.cons.injEq, ih]
      tauto

theorem subStr_iff (n h : List Char) :
    subStr n h = true ↔ ∃ i, (h.drop i).take n.length = n := by
  induction h with
  | nil =>
    simp only [subStr, headMatch_iff]
    constructor
    · intro hh
      exact ⟨0, hh⟩
    · rintro ⟨i, hi⟩
      simpa using hi
  | cons c t ih =>
    simp only [subStr, Bool.or_eq_true, headMatch_iff, ih]
    constructor
    · rintro (hh | ⟨i, hi⟩)
      · exact ⟨0, hh⟩
      · exact ⟨i + 1, hi⟩
    · rintro ⟨i, hi⟩
      cases i with
      | zero => exact Or.inl hi
      | succ j => exact Or.inr ⟨j, hi⟩

/-- C3 (counterexample): with proximity 0 the code tests
`" ".join(p) in " ".join(words)`, a *string* containment, not a
contiguous occurrence of the token sequence: body `"xa b"` and phrase
`"a b"` match (`"a b"` is a substring of `"xa b"`) although the token
sequence `["a","b"]` does not occur in `["xa","b"]`.  Moreover the code
returns `False` whenever the body has fewer tokens than the phrase, even
when the claim's window condition holds, e.g. body `"a"`, phrase
`"a a"`, proximity 1. -/
theorem C3_counterexample :
    (phrase_present "xa b" "a b" 0 = true ∧
      ¬ ∃ i, ((tokenize "xa b").drop i).take (tokenize "a b").length = tokenize "a b") ∧
    (phrase_present "a" "a a" 1 = false ∧
      ∃ i, i < (tokenize "a").length ∧
        (tokenize "a").getD i "" = (tokenize "a a").headD "" ∧
        ∀ pw ∈ tokenize "a a",
          pw ∈ ((tokenize "a").drop i).take ((tokenize "a a").length + 1)) := by
  refine ⟨⟨by decide, ?_⟩, by decide, ⟨0, by decide, by decide, by decide⟩⟩
  rintro ⟨i, hi⟩
  have h1 : tokenize "xa b" = ["xa", "b"] := by decide
  have h2 : tokenize "a b" = ["a", "b"] := by decide
  rw [h1, h2] at hi
  match i with
  | 0 => exact absurd hi (by decide)
  | 1 => exact absurd hi (by decide)
  | (j + 2) =>
    rw [List.drop_eq_nil_of_le (by simp)] at hi
    simp at hi

/-- C3 (amended): `phrase_present(body, phrase, proximity)` is true iff
`p_tokens = tokenize(phrase)` is nonempty and `w = tokenize(body)` has
at least as many tokens, and: with proximity 0, the space-joined phrase
tokens occur as a substring of the space-joined body tokens (not
necessarily on token boundaries); with proximity > 0, some index `i` has
`w[i]` equal to the first phrase token and every phrase token occurs in
the window `w[i : i+len(p_tokens)+proximity]`. -/
theorem C3_phrase_present_amended (text phrase : String) (prox : ℕ) :
    phrase_present text phrase prox = true ↔
      (tokenize phrase ≠ [] ∧ (tokenize phrase).length ≤ (tokenize text).length ∧
        ((prox = 0 ∧
            ∃ i, ((joinSp (tokenize text)).drop i).take (joinSp (tokenize phrase)).length =
              joinSp (tokenize phrase)) ∨
         (0 < prox ∧
            ∃ i, i < (tokenize text).length ∧
              (tokenize text).getD i "" = (tokenize phrase).headD "" ∧
              ∀ pw ∈ tokenize phrase,
                pw ∈ ((tokenize text).drop i).take ((tokenize phrase).length + prox)))) := by
  simp only [phrase_present]
  by_cases hp : (tokenize phrase).isEmpty
  · have hpe : tokenize phrase = [] := List.isEmpty_iff.mp hp
    simp [hp, hpe]
  · have hpe : tokenize phrase ≠ [] := fun he => hp (by simp [he])
    by_cases hlen : (tokenize text).length < (tokenize phrase).length
    · have hnle : ¬ (tokenize phrase).length ≤ (tokenize text).length := by omega
      simp [hp, hlen, hnle]
    · have hle : (tokenize phrase).length ≤ (tokenize text).length := by omega
      have hcond : ((tokenize phrase).isEmpty ||
          decide ((tokenize text).length < (tokenize phrase).length)) = false := by
        simp [hp, hlen]
      rw [hcond]
      simp only [Bool.false_eq_true, if_false]
      by_cases hprox : prox = 0
      · subst hprox
        rw [if_pos rfl, subStr_iff]
        constructor
        · intro hh
          exact ⟨hpe, hle, Or.inl ⟨rfl, hh⟩⟩
        · rintro ⟨-, -, h⟩
          rcases h with ⟨-, hh⟩ | ⟨hlt, -⟩
          · exact hh
          · exact absurd hlt (by omega)
      · rw [if_neg hprox]
        simp only [List.any_eq_true, List.mem_filter, List.mem_range, List.all_eq_true,
          beq_iff_eq]
        constructor
        · rintro ⟨i, ⟨hilt, hihead⟩, hall⟩
          refine ⟨hpe, hle, Or.inr ⟨Nat.pos_of_ne_zero hprox, i, hilt, hihead, ?_⟩⟩
          intro pw hpw
          obtain ⟨w2, hw2, he⟩ := hall pw hpw
          rw [← he]
          exact hw2
        · rintro ⟨-, -, h⟩
          rcases h with ⟨h0, -⟩ | ⟨-, i, hilt, hihead, hall⟩
          · exact absurd h0 hprox
          · refine ⟨i, ⟨hilt, hihead⟩, ?_⟩
            intro pw hpw
            exact ⟨pw, hall pw hpw, rfl⟩

theorem firstDedupAux_of_disjoint (l seen : List String) (h : l.Nodup)
    (hd : ∀ x ∈ l, ¬ seen.contains x = true) : firstDedupAux seen l = l := by
  induction l generalizing seen with
  | nil => rfl
  | cons x xs ih =>
    have hx : ¬ seen.contains x = true := hd x (by simp)
    rw [firstDedupAux, if_neg hx]
    congr 1
    apply ih _ (List.nodup_cons.mp h).2
    intro y hy
    simp only [List.contains_cons, Bool.or_eq_true, beq_iff_eq]
    rintro (he | he)
    · subst he
      exact (List.nodup_cons.mp h).1 hy
    · exact hd y (by simp [hy]) he

theorem firstDedup_of_nodup (l : List String) (h : l.Nodup) : firstDedup l = l :=
  firstDedupAux_of_disjoint l [] h (by simp)

theorem length_filter_eq_iff (l : List String) (p : String → Bool) :
    (l.filter p).length = l.length ↔ ∀ x ∈ l, p x = true := by
  constructor
  · intro h
    have hs : l.filter p = l := (List.filter_sublist l).eq_of_length h
    intro x hx
    rw [← hs] at hx
    exact (List.mem_filter.mp hx).2
  · intro h
    rw [List.filter_eq_self.mpr h]

/-- C2 (counterexample): the claim's strict-filter characterization
fails in two ways.  With duplicated required phrases (`["a","a"]`) every
required phrase is present in the body `"a"` and there are no token
requirements, yet the strict filter retains nothing, because it compares
the number of *distinct* present phrases (1) with the duplicate-counting
total (2).  And with no required tokens but `min_hits = 2`, the claim's
condition `|token_hits| ≥ need = min_hits` fails (0 < 2) yet the code
retains the candidate, because the token test is skipped entirely when
`must` is empty. -/
theorem C2_counterexample :
    ((∀ p ∈ ["a", "a"], phrase_present "a" p 0 = true) ∧
      strictKeep [("d1", "a")] [] ["a", "a"] 0 0 = []) ∧
    (¬ (((keyword_hits "a" []).length : ℤ) ≥ 2) ∧
      strictKeep [("d1", "a")] [] [] 2 0 = [("d1", "a")]) := by
  refine ⟨⟨?_, ?_⟩, ?_, ?_⟩ <;> decide

/-- C2 (amended): in the constraint-filter stage of `retrieve`, a
candidate is retained by the strict filter iff (the required-token list
is empty, or the number of distinct required tokens present in its body
is at least `need`, with `need = min_hits` when `min_hits > 0` and the
number of required tokens otherwise) and (the required-phrase list is
empty, or the number of *distinct* required phrases present in its body
equals the duplicate-counting total of required phrases — which, when
the required phrases are pairwise distinct, says exactly that every
required phrase is present).  Whenever the strict filter retains zero
candidates the stage falls back to the full unfiltered candidate list,
with coverage still computed for each candidate, so the result is empty
iff there were no candidates at all. -/
theorem C2_filter_amended (cands : List (String × String))
    (req_terms req_phrases : List String) (min_hits : ℤ) (prox : ℕ) :
    (∀ c ∈ cands,
      (c ∈ strictKeep cands req_terms req_phrases min_hits prox ↔
        ((req_terms = [] ∨ ((keyword_hits c.2 req_terms).length : ℤ) ≥
            (if min_hits > 0 then min_hits else (req_terms.length : ℤ))) ∧
         (req_phrases = [] ∨
            (phraseHits c.2 req_phrases prox).length = req_phrases.length))))
    ∧ (req_phrases.Nodup → ∀ doc : String,
        ((phraseHits doc req_phrases prox).length = req_phrases.length ↔
          ∀ p ∈ req_phrases, phrase_present doc p prox = true))
    ∧ (strictKeep cands req_terms req_phrases min_hits prox = [] →
        filterStage cands req_terms req_phrases min_hits prox =
          cands.map (fun c => (c, coverage_score c.2 req_terms req_phrases prox)))
    ∧ (strictKeep cands req_terms req_phrases min_hits prox ≠ [] →
        filterStage cands req_terms req_phrases min_hits prox =
          (strictKeep cands req_terms req_phrases min_hits prox).map
            (fun c => (c, coverage_score c.2 req_terms req_phrases prox)))
    ∧ (filterStage cands req_terms req_phrases min_hits prox = [] ↔ cands = []) := by
  refine ⟨?_, ?_, ?_, ?_, ?_⟩
  · intro c hc
    simp only [strictKeep, List.mem_filter, hc, true_and, passesFilter,
      Bool.and_eq_true, Bool.or_eq_true, decide_eq_true_eq, List.isEmpty_iff]
  · intro hnd doc
    rw [phraseHits, firstDedup_of_nodup req_phrases hnd]
    exact length_filter_eq_iff req_phrases _
  · intro hk
    rw [filterStage]
    simp [hk]
  · intro hk
    rw [filterStage]
    simp only [List.isEmpty_iff, hk, if_false]
  · simp only [filterStage]
    by_cases hk : (strictKeep cands req_terms req_phrases min_hits prox).isEmpty = true
    · rw [if_pos hk]
      simp only [List.map_eq_nil_iff]
    · rw [if_neg hk]
      simp only [List.map_eq_nil_iff]
      have hne : strictKeep cands req_terms req_phrases min_hits prox ≠ [] := by
        simpa using hk
      constructor
      · intro he
        exact absurd he hne
      · intro he
        subst he
        exact absurd rfl hne

theorem lor_two_pow_of_lt (a i : ℕ) (h : a < 2 ^ i) : a ||| 2 ^ i = a + 2 ^ i := by
  apply Nat.eq_of_testBit_eq
  intro j
  rw [Nat.testBit_lor]
  rcases lt_trichotomy j i with hj | hj | hj
  · rw [Nat.add_comm, Nat.testBit_two_pow_add_gt hj]
    simp [Nat.testBit_two_pow_of_ne (by omega : i ≠ j)]
  · subst hj
    rw [Nat.add_comm, Nat.testBit_two_pow_add_eq, Nat.testBit_lt_two_pow h]
    simp [Nat.testBit_two_pow_self]
  · have h1 : a + 2 ^ i < 2 ^ (i + 1) := by
      rw [pow_succ]
      omega
    have h2 : a + 2 ^ i < 2 ^ j :=
      lt_of_lt_of_le h1 (Nat.pow_le_pow_right (by norm_num) (by omega))
    have h3 : a < 2 ^ j := by omega
    rw [Nat.testBit_lt_two_pow h2, Nat.testBit_lt_two_pow h3,
      Nat.testBit_two_pow_of_ne (by omega : i ≠ j)]
    rfl

theorem simhash_out_fold (v : List ℤ) (l : List ℕ) (acc : ℕ)
    (hp : l.Pairwise (· < ·)) (hb : ∀ i ∈ l, acc < 2 ^ i) :
    l.foldl (fun out i => if 0 ≤ v.getD i 0 then out ||| (1 <<< i) else out) acc =
      acc + (l.map (fun i => if 0 ≤ v.getD i 0 then 2 ^ i else 0)).sum := by
  induction l generalizing acc with
  | nil => simp
  | cons i rest ih =>
    rcases List.pairwise_cons.mp hp with ⟨hlt, hrest⟩
    have hacc : acc < 2 ^ i := hb i (by simp)
    simp only [List.foldl_cons, List.map_cons, List.sum_cons]
    by_cases hP : (0 : ℤ) ≤ v.getD i 0
    · have hstep : acc ||| (1 <<< i) = acc + 2 ^ i := by
        rw [Nat.one_shiftLeft]
        exact lor_two_pow_of_lt acc i hacc
      have hb2 : ∀ j ∈ rest, acc + 2 ^ i < 2 ^ j := by
        intro j hj
        have hij : i < j := hlt j hj
        have h4 : 2 ^ (i + 1) ≤ 2 ^ j := Nat.pow_le_pow_right (by norm_num) (by omega)
        have h5 : acc + 2 ^ i < 2 ^ (i + 1) := by
          rw [pow_succ]
          omega
        omega
      rw [if_pos hP, if_pos hP, hstep, ih _ hrest hb2]
      ring
    · have hb2 : ∀ j ∈ rest, acc < 2 ^ j := by
        intro j hj
        have hij : i < j := hlt j hj
        have h4 : 2 ^ i ≤ 2 ^ j := Nat.pow_le_pow_right (by norm_num) (by omega)
        omega
      rw [if_neg hP, if_neg hP, ih _ hrest hb2]
      ring

theorem getD_simhashStep (v : List ℤ) (w : String) (i : ℕ) (hi : i < 64) :
    (simhashStep v w).getD i 0 =
      v.getD i 0 + (if (md5Int w >>> i) % 2 = 1 then 1 else -1) := by
  simp [simhashStep, List.getD_eq_getElem?_getD, List.getElem?_map, List.getElem?_range, hi]

theorem getD_foldl_simhashStep (ts : List String) (v : List ℤ) (i : ℕ) (hi : i < 64) :
    (ts.foldl simhashStep v).getD i 0 = v.getD i 0 + simhashBitSum ts i := by
  induction ts generalizing v with
  | nil => simp [simhashBitSum]
  | cons w rest ih =>
    simp only [List.foldl_cons]
    rw [ih (simhashStep v w), getD_simhashStep v w i hi]
    have : simhashBitSum (w :: rest) i =
        (if (md5Int w >>> i) % 2 = 1 then (1 : ℤ) else -1) + simhashBitSum rest i := by
      simp [simhashBitSum]
    rw [this]
    ring

set_option maxRecDepth 8000 in
/-- C4 (counterexample): the ingest `simhash` does not match the
specified formula.  On the empty text it returns 0 (explicit guard),
while the specified formula with no tokens has every accumulator
`v[i] = 0 ≥ 0` and yields all 64 bits set.  On `"a-b"` the code
tokenizes with `\b[\w\-]+\b` (one token `"a-b"`) instead of the
canonical `tokenize` (tokens `"a"`, `"b"`), and the resulting hashes
differ. -/
theorem C4_counterexample :
    simhash "" = 0 ∧ simhashClaimSpec "" = 18446744073709551615 ∧
      simhash "a-b" ≠ simhashClaimSpec "a-b" := by
  refine ⟨by decide, by decide, by decide⟩

/-- C4 (amended): for every input text, the ingest `simhash` tokenizes
with the regex `\b[\w\-]+\b` on the lowercased text (maximal runs of
word characters and hyphens, trimmed of hyphens at the ends) — not with
the canonical `tokenize` — and returns 0 when there are no tokens;
otherwise output bit `i` is 1 iff `v[i] ≥ 0`, where each token `w`
contributes +1 to `v[i]` when bit `i` of `md5(w)` (as a 128-bit integer)
is set and −1 otherwise, for `i ∈ [0, 64)`. -/
theorem C4_simhash_amended (s : String) :
    simhash s = if (simTokens s).isEmpty then 0 else simhashFormula (simTokens s) := by
  simp only [simhash]
  by_cases h : (simTokens s).isEmpty
  · simp [h]
  · rw [if_neg h, if_neg h]
    rw [simhash_out_fold _ _ _ (List.pairwise_lt_range 64)
      (fun i _ => Nat.pos_pow_of_pos i (by norm_num))]
    rw [zero_add, simhashFormula]
    congr 1
    apply List.map_congr_left
    intro i hi
    have hi64 : i < 64 := List.mem_range.mp hi
    rw [getD_foldl_simhashStep _ _ _ hi64]
    have hrep : (List.replicate 64 (0 : ℤ)).getD i 0 = 0 := by
      rw [List.getD_eq_getElem?_getD, List.getElem?_replicate, if_pos hi64]
      rfl
    rw [hrep, zero_add]

theorem ingestFold_cons (t : String) (st : IngestState) (c : ChunkIn) (cs : List ChunkIn) :
    ingestFold t st (c :: cs) =
      ((ingestFold t (processChunk t st c).1 cs).1,
        (processChunk t st c).2.1 :: (ingestFold t (processChunk t st c).1 cs).2.1,
        match (processChunk t st c).2.2 with
        | some r => r :: (ingestFold t (processChunk t st c).1 cs).2.2
        | none => (ingestFold t (processChunk t st c).1 cs).2.2) := rfl

theorem contains_iff_mem {α : Type} [BEq α] [LawfulBEq α] (l : List α) (a : α) :
    l.contains a = true ↔ a ∈ l := by
  simp [List.contains, List.elem_iff]

theorem processChunk_empty (t : String) (st : IngestState) (c : ChunkIn)
    (h1 : (chunkPiece c).isEmpty = true) :
    processChunk t st c = (st, Outcome.skippedEmpty, none) := by
  simp only [processChunk]
  rw [if_pos h1]

theorem processChunk_exact (t : String) (st : IngestState) (c : ChunkIn)
    (h1 : ¬ (chunkPiece c).isEmpty = true)
    (h2 : st.seenHashes.contains (chunkHid c) = true) :
    processChunk t st c =
      ({ st with exactCt := st.exactCt + 1 }, Outcome.skippedExact, none) := by
  simp only [processChunk]
  rw [if_neg h1, if_pos h2]

theorem processChunk_near (t : String) (st : IngestState) (c : ChunkIn)
    (h1 : ¬ (chunkPiece c).isEmpty = true)
    (h2 : ¬ st.seenHashes.contains (chunkHid c) = true)
    (h3 : st.seenSim.any (fun prev => hamming (chunkSim c) prev ≤ 3) = true) :
    processChunk t st c =
      ({ st with nearCt := st.nearCt + 1 }, Outcome.skippedNear, none) := by
  simp only [processChunk]
  rw [if_neg h1, if_neg h2, if_pos h3]

theorem processChunk_stored (t : String) (st : IngestState) (c : ChunkIn)
    (h1 : ¬ (chunkPiece c).isEmpty = true)
    (h2 : ¬ st.seenHashes.contains (chunkHid c) = true)
    (h3 : ¬ st.seenSim.any (fun prev => hamming (chunkSim c) prev ≤ 3) = true) :
    processChunk t st c =
      ({ st with
          seenHashes := chunkHid c :: st.seenHashes,
          seenSim := chunkSim c :: st.seenSim },
        Outcome.stored ("h:" ++ chunkHid c),
        some ⟨"h:" ++ chunkHid c, chunkPiece c,
          ⟨c.app, c.source_path, c.title, c.seq_idx, t, chunkHid c, chunkSim c⟩⟩) := by
  simp only [processChunk]
  rw [if_neg h1, if_neg h2, if_neg h3]

theorem processChunk_mono (t : String) (st : IngestState) (c : ChunkIn) :
    (∀ h ∈ st.seenHashes, h ∈ (processChunk t st c).1.seenHashes) ∧
      (∀ s ∈ st.seenSim, s ∈ (processChunk t st c).1.seenSim) := by
  by_cases h1 : (chunkPiece c).isEmpty = true
  · rw [processChunk_empty t st c h1]
    exact ⟨fun h hh => hh, fun s hs => hs⟩
  · by_cases h2 : st.seenHashes.contains (chunkHid c) = true
    · rw [processChunk_exact t st c h1 h2]
      exact ⟨fun h hh => hh, fun s hs => hs⟩
    · by_cases h3 : st.seenSim.any (fun prev => hamming (chunkSim c) prev ≤ 3) = true
      · rw [processChunk_near t st c h1 h2 h3]
        exact ⟨fun h hh => hh, fun s hs => hs⟩
      · rw [processChunk_stored t st c h1 h2 h3]
        exact ⟨fun h hh => List.mem_cons_of_mem _ hh, fun s hs => List.mem_cons_of_mem _ hs⟩

theorem outcome_of_empty_fold (t : String) (cs : List ChunkIn) :
    ∀ (st : IngestState) (j : ℕ) (c : ChunkIn), cs[j]? = some c →
      (chunkPiece c).isEmpty = true →
      ((ingestFold t st cs).2.1)[j]? = some Outcome.skippedEmpty := by
  induction cs with
  | nil =>
    intro st j c hc
    simp at hc
  | cons hd rest ih =>
    intro st j c hc he
    rw [ingestFold_cons]
    cases j with
    | zero =>
      simp only [List.getElem?_cons_zero, Option.some.injEq] at hc
      subst hc
      simp only [List.getElem?_cons_zero, Option.some.injEq]
      rw [processChunk_empty t st hd he]
    | succ k =>
      simp only [List.getElem?_cons_succ] at hc
      simpa using ih (processChunk t st hd).1 k c hc he

theorem skipped_of_seen (t : String) (cs : List ChunkIn) :
    ∀ (st : IngestState) (j : ℕ) (c : ChunkIn), cs[j]? = some c →
      ¬ (chunkPiece c).isEmpty = true →
      (chunkHid c ∈ st.seenHashes ∨ ∃ s ∈ st.seenSim, hamming (chunkSim c) s ≤ 3) →
      (((ingestFold t st cs).2.1)[j]? = some Outcome.skippedExact ∨
        ((ingestFold t st cs).2.1)[j]? = some Outcome.skippedNear) := by
  induction cs with
  | nil =>
    intro st j c hc
    simp at hc
  | cons hd rest ih =>
    intro st j c hc hne hseen
    rw [ingestFold_cons]
    cases j with
    | zero =>
      simp only [List.getElem?_cons_zero, Option.some.injEq] at hc
      subst hc
      by_cases h2 : st.seenHashes.contains (chunkHid hd) = true
      · left
        simp only [List.getElem?_cons_zero, Option.some.injEq]
        rw [processChunk_exact t st hd hne h2]
      · right
        have h3 : st.seenSim.any (fun prev => hamming (chunkSim hd) prev ≤ 3) = true := by
          rcases hseen with hmem | ⟨s, hs, hham⟩
          · exact absurd ((contains_iff_mem st.seenHashes (chunkHid hd)).mpr hmem) h2
          · exact List.any_eq_true.mpr ⟨s, hs, by simpa using hham⟩
        simp only [List.getElem?_cons_zero, Option.some.injEq]
        rw [processChunk_near t st hd hne h2 h3]
    | succ k =>
      simp only [List.getElem?_cons_succ] at hc
      have hmono := processChunk_mono t st hd
      have hseen2 : chunkHid c ∈ (processChunk t st hd).1.seenHashes ∨
          ∃ s ∈ (processChunk t st hd).1.seenSim, hamming (chunkSim c) s ≤ 3 := by
        rcases hseen with hmem | ⟨s, hs, hham⟩
        · exact Or.inl (hmono.1 _ hmem)
        · exact Or.inr ⟨s, hmono.2 _ hs, hham⟩
      simpa using ih (processChunk t st hd).1 k c hc hne hseen2

theorem counters_fold (t : String) (cs : List ChunkIn) : ∀ st : IngestState,
    (ingestFold t st cs).1.exactCt = st.exactCt +
      (((ingestFold t st cs).2.1).filter (fun o => o == Outcome.skippedExact)).length ∧
    (ingestFold t st cs).1.nearCt = st.nearCt +
      (((ingestFold t st cs).2.1).filter (fun o => o == Outcome.skippedNear)).length := by
  induction cs with
  | nil => intro st; exact ⟨rfl, rfl⟩
  | cons c rest ih =>
    intro st
    rw [ingestFold_cons]
    by_cases h1 : (chunkPiece c).isEmpty = true
    · rw [processChunk_empty t st c h1]
      rcases ih st with ⟨he, hn⟩
      constructor
      · simpa [List.filter_cons] using he
      · simpa [List.filter_cons] using hn
    · by_cases h2 : st.seenHashes.contains (chunkHid c) = true
      · rw [processChunk_exact t st c h1 h2]
        rcases ih { st with exactCt := st.exactCt + 1 } with ⟨he, hn⟩
        constructor
        · simp only [List.filter_cons]
          simp only [he]
          simp [Nat.add_comm, Nat.add_assoc, Nat.add_left_comm]
        · simpa [List.filter_cons] using hn
      · by_cases h3 : st.seenSim.any (fun prev => hamming (chunkSim c) prev ≤ 3) = true
        · rw [processChunk_near t st c h1 h2 h3]
          rcases ih { st with nearCt := st.nearCt + 1 } with ⟨he, hn⟩
          constructor
          · simpa [List.filter_cons] using he
          · simp only [List.filter_cons]
            simp only [hn]
            simp [Nat.add_comm, Nat.add_assoc, Nat.add_left_comm]
        · rw [processChunk_stored t st c h1 h2 h3]
          rcases ih { st with
            seenHashes := chunkHid c :: st.seenHashes,
            seenSim := chunkSim c :: st.seenSim } with ⟨he, hn⟩
          constructor
          · simpa [List.filter_cons] using he
          · simpa [List.filter_cons] using hn

set_option maxRecDepth 8000 in
/-- C5 (counterexample): the dedup stage drops only chunks whose body is
empty after `strip()`.  A chunk whose body is `"Page 1"` normalizes to
the empty string under `normalize_for_hash`, yet it is stored (with the
cid of the empty content hash), and a later chunk `"Page 2"`, which also
normalizes to the empty string, is counted as an exact duplicate —
contradicting both parts of the claim. -/
theorem C5_counterexample :
    normalize_for_hash "Page 1" = "" ∧
      ingestOutcomes "t0" [⟨"claims", "p", "", 0, "Page 1"⟩] =
        [Outcome.stored "h:e3b0c44298fc1c149afbf4c8996fb92427ae41e4649b934ca495991b7852b855"] ∧
      ingestOutcomes "t0" [⟨"claims", "p", "", 0, "Page 1"⟩, ⟨"claims", "q", "", 1, "Page 2"⟩] =
        [Outcome.stored "h:e3b0c44298fc1c149afbf4c8996fb92427ae41e4649b934ca495991b7852b855",
          Outcome.skippedExact] := by
  refine ⟨by decide, by decide, by decide⟩

/-- C5 (amended): a chunk is dropped before dedup — not stored, not
counted as an exact or near duplicate — exactly when its body is empty
or whitespace-only (Python `strip()`), for every position in the
ingestion sequence; the duplicate counters count exactly the
exact-skipped and near-skipped outcomes, so such a chunk contributes to
neither.  A chunk whose body merely *normalizes* to the empty string
goes through dedup like any other chunk. -/
theorem C5_empty_body_amended (t : String) (chunks : List ChunkIn) (j : ℕ) (c : ChunkIn)
    (hc : chunks[j]? = some c) (he : (chunkPiece c).isEmpty = true) :
    (ingestOutcomes t chunks)[j]? = some Outcome.skippedEmpty ∧
    (ingestFold t initState chunks).1.exactCt =
      ((ingestOutcomes t chunks).filter (fun o => o == Outcome.skippedExact)).length ∧
    (ingestFold t initState chunks).1.nearCt =
      ((ingestOutcomes t chunks).filter (fun o => o == Outcome.skippedNear)).length := by
  refine ⟨outcome_of_empty_fold t chunks initState j c hc he, ?_, ?_⟩
  · have h := (counters_fold t chunks initState).1
    simpa [initState, ingestOutcomes] using h
  · have h := (counters_fold t chunks initState).2
    simpa [initState, ingestOutcomes] using h

/-- Witness for C5 at a whitespace-only chunk. -/
theorem C5_witness :
    (ingestOutcomes "t0" [⟨"claims", "p", "", 0, "  "⟩])[0]? = some Outcome.skippedEmpty ∧
    (ingestFold "t0" initState [⟨"claims", "p", "", 0, "  "⟩]).1.exactCt =
      ((ingestOutcomes "t0" [⟨"claims", "p", "", 0, "  "⟩]).filter
        (fun o => o == Outcome.skippedExact)).length ∧
    (ingestFold "t0" initState [⟨"claims", "p", "", 0, "  "⟩]).1.nearCt =
      ((ingestOutcomes "t0" [⟨"claims", "p", "", 0, "  "⟩]).filter
        (fun o => o == Outcome.skippedNear)).length :=
  C5_empty_body_amended "t0" [⟨"claims", "p", "", 0, "  "⟩] 0 ⟨"claims", "p", "", 0, "  "⟩
    (by decide) (by decide)

theorem ingestFold_time_inv (t1 t2 : String) (cs : List ChunkIn) : ∀ st : IngestState,
    (ingestFold t1 st cs).1 = (ingestFold t2 st cs).1 ∧
    (ingestFold t1 st cs).2.1 = (ingestFold t2 st cs).2.1 ∧
    (ingestFold t1 st cs).2.2.map eraseTimeRec = (ingestFold t2 st cs).2.2.map eraseTimeRec := by
  induction cs with
  | nil => intro st; exact ⟨rfl, rfl, rfl⟩
  | cons c rest ih =>
    intro st
    rw [ingestFold_cons t1, ingestFold_cons t2]
    by_cases h1 : (chunkPiece c).isEmpty = true
    · rw [processChunk_empty t1 st c h1, processChunk_empty t2 st c h1]
      rcases ih st with ⟨hs, ho, hr⟩
      exact ⟨hs, by simpa using ho, by simpa using hr⟩
    · by_cases h2 : st.seenHashes.contains (chunkHid c) = true
      · rw [processChunk_exact t1 st c h1 h2, processChunk_exact t2 st c h1 h2]
        rcases ih { st with exactCt := st.exactCt + 1 } with ⟨hs, ho, hr⟩
        exact ⟨hs, by simpa using ho, by simpa using hr⟩
      · by_cases h3 : st.seenSim.any (fun prev => hamming (chunkSim c) prev ≤ 3) = true
        · rw [processChunk_near t1 st c h1 h2 h3, processChunk_near t2 st c h1 h2 h3]
          rcases ih { st with nearCt := st.nearCt + 1 } with ⟨hs, ho, hr⟩
          exact ⟨hs, by simpa using ho, by simpa using hr⟩
        · rw [processChunk_stored t1 st c h1 h2 h3, processChunk_stored t2 st c h1 h2 h3]
          rcases ih { st with
            seenHashes := chunkHid c :: st.seenHashes,
            seenSim := chunkSim c :: st.seenSim } with ⟨hs, ho, hr⟩
          refine ⟨hs, by simpa using ho, ?_⟩
          simp only [List.map_cons]
          rw [hr]
          congr 1

set_option maxRecDepth 8000 in
/-- C6 (counterexample): two ingestion runs over the same corpus do not
produce identical index contents.  The metadata records carry the run's
`utc_now()` timestamp, so runs at different times differ; and the
per-app JSONL corpus files are opened in append mode, so even a second
run at the *same* time leaves the file holding two copies of the
records rather than the contents a single run produces. -/
theorem C6_counterexample :
    ingestStored "2024-01-01T00:00:00Z" [⟨"claims", "p", "", 0, "hello world"⟩] ≠
      ingestStored "2024-01-02T09:30:00Z" [⟨"claims", "p", "", 0, "hello world"⟩] ∧
    jsonlAfterRun
        (jsonlAfterRun (fun _ => []) "2024-01-01T00:00:00Z" [⟨"claims", "p", "", 0, "hello world"⟩])
        "2024-01-01T00:00:00Z" [⟨"claims", "p", "", 0, "hello world"⟩] "claims" ≠
      jsonlAfterRun (fun _ => []) "2024-01-01T00:00:00Z" [⟨"claims", "p", "", 0, "hello world"⟩]
        "claims" := by
  refine ⟨by decide, by decide⟩

/-- C6 (amended): running the dedup-and-store pipeline twice over the
same corpus yields identical cid lists, and per-chunk metadata records
identical except for the `ingested_at` timestamp (identical when the
two runs see the same clock value); the per-app JSONL corpus files,
being opened in append mode, accumulate: after the second run each
app's file holds the initial contents followed by the first run's
records and then the second run's records. -/
theorem C6_ingest_amended (chunks : List ChunkIn) (t1 t2 : String)
    (init : String → List StoredRec) :
    ingestCids t1 chunks = ingestCids t2 chunks ∧
    (ingestStored t1 chunks).map eraseTimeRec = (ingestStored t2 chunks).map eraseTimeRec ∧
    (t1 = t2 → ingestStored t1 chunks = ingestStored t2 chunks) ∧
    (∀ a, jsonlAfterRun (jsonlAfterRun init t1 chunks) t2 chunks a =
      init a ++ ((ingestStored t1 chunks).filter (fun r => r.meta.app == a) ++
        (ingestStored t2 chunks).filter (fun r => r.meta.app == a))) := by
  have hr : (ingestStored t1 chunks).map eraseTimeRec =
      (ingestStored t2 chunks).map eraseTimeRec :=
    (ingestFold_time_inv t1 t2 chunks initState).2.2
  refine ⟨?_, hr, ?_, ?_⟩
  · have h1 : ingestCids t1 chunks =
        ((ingestStored t1 chunks).map eraseTimeRec).map StoredRec.cid := by
      rw [List.map_map]
      rfl
    have h2 : ingestCids t2 chunks =
        ((ingestStored t2 chunks).map eraseTimeRec).map StoredRec.cid := by
      rw [List.map_map]
      rfl
    rw [h1, h2, hr]
  · intro he
    subst he
    rfl
  · intro a
    simp only [jsonlAfterRun]
    rw [List.append_assoc]

theorem stored_branch (t : String) (st : IngestState) (c : ChunkIn) (cid : String)
    (h : (processChunk t st c).2.1 = Outcome.stored cid) :
    ¬ (chunkPiece c).isEmpty = true ∧
    (processChunk t st c).1.seenHashes = chunkHid c :: st.seenHashes ∧
    (processChunk t st c).1.seenSim = chunkSim c :: st.seenSim := by
  by_cases h1 : (chunkPiece c).isEmpty = true
  · rw [processChunk_empty t st c h1] at h
    cases h
  · by_cases h2 : st.seenHashes.contains (chunkHid c) = true
    · rw [processChunk_exact t st c h1 h2] at h
      cases h
    · by_cases h3 : st.seenSim.any (fun prev => hamming (chunkSim c) prev ≤ 3) = true
      · rw [processChunk_near t st c h1 h2 h3] at h
        cases h
      · rw [processChunk_stored t st c h1 h2 h3]
        exact ⟨h1, rfl, rfl⟩

theorem dedup_shared_fold (t : String) (cs : List ChunkIn) :
    ∀ (st : IngestState) (i j : ℕ) (ci cj : ChunkIn) (cid : String),
      i < j → cs[i]? = some ci → cs[j]? = some cj →
      ((ingestFold t st cs).2.1)[i]? = some (Outcome.stored cid) →
      ¬ (chunkPiece cj).isEmpty = true →
      (chunkHid cj = chunkHid ci ∨ hamming (chunkSim cj) (chunkSim ci) ≤ 3) →
      (((ingestFold t st cs).2.1)[j]? = some Outcome.skippedExact ∨
        ((ingestFold t st cs).2.1)[j]? = some Outcome.skippedNear) := by
  induction cs with
  | nil =>
    intro st i j ci cj cid hij hi
    simp at hi
  | cons hd rest ih =>
    intro st i j ci cj cid hij hi hj hst hne hm
    rw [ingestFold_cons] at hst ⊢
    cases j with
    | zero => omega
    | succ k =>
      simp only [List.getElem?_cons_succ] at hj
      cases i with
      | zero =>
        simp only [List.getElem?_cons_zero, Option.some.injEq] at hi
        subst hi
        simp only [List.getElem?_cons_zero, Option.some.injEq] at hst
        rcases stored_branch t st hd cid hst with ⟨-, hH, hS⟩
        have hseen : chunkHid cj ∈ (processChunk t st hd).1.seenHashes ∨
            ∃ s ∈ (processChunk t st hd).1.seenSim, hamming (chunkSim cj) s ≤ 3 := by
          rcases hm with hm | hm
          · left
            rw [hH, hm]
            exact List.mem_cons_self _ _
          · right
            exact ⟨chunkSim hd, by rw [hS]; exact List.mem_cons_self _ _, hm⟩
        simpa using skipped_of_seen t rest (processChunk t st hd).1 k cj hj hne hseen
      | succ m =>
        simp only [List.getElem?_cons_succ] at hi hst
        simpa using ih (processChunk t st hd).1 m k ci cj cid (by omega) hi hj hst hne hm

/-- C10 (confirmed): the exact-dedup hash set and near-dup SimHash list
are created once per run, before the per-collection loop, so they are
shared across all collections and apps.  If the chunk at position `i`
(under any app) is stored and a later chunk at position `j` (under any
app, possibly different) has the same normalized-body hash or a SimHash
within Hamming distance 3 of it, the later chunk is skipped as an exact
or near duplicate — content duplicated across apps is stored only under
the first app processed. -/
theorem C10_dedup_shared (t : String) (chunks : List ChunkIn) (i j : ℕ)
    (ci cj : ChunkIn) (cid : String) (hij : i < j)
    (hi : chunks[i]? = some ci) (hj : chunks[j]? = some cj)
    (hst : (ingestOutcomes t chunks)[i]? = some (Outcome.stored cid))
    (hne : ¬ (chunkPiece cj).isEmpty = true)
    (hm : chunkHid cj = chunkHid ci ∨ hamming (chunkSim cj) (chunkSim ci) ≤ 3) :
    (ingestOutcomes t chunks)[j]? = some Outcome.skippedExact ∨
      (ingestOutcomes t chunks)[j]? = some Outcome.skippedNear :=
  dedup_shared_fold t chunks initState i j ci cj cid hij hi hj hst hne hm

set_option maxRecDepth 8000 in
/-- Witness for C10: the same sentence ingested under app `claims` and
then (differing only in case and spacing) under app `fraud` is stored
once, under the first app, and skipped the second time. -/
theorem C10_witness :
    (ingestOutcomes "t0" [⟨"claims", "p", "", 0, "hello world"⟩,
        ⟨"fraud", "q", "", 1, "Hello  WORLD"⟩])[1]? = some Outcome.skippedExact ∨
      (ingestOutcomes "t0" [⟨"claims", "p", "", 0, "hello world"⟩,
        ⟨"fraud", "q", "", 1, "Hello  WORLD"⟩])[1]? = some Outcome.skippedNear :=
  C10_dedup_shared "t0"
    [⟨"claims", "p", "", 0, "hello world"⟩, ⟨"fraud", "q", "", 1, "Hello  WORLD"⟩]
    0 1 ⟨"claims", "p", "", 0, "hello world"⟩ ⟨"fraud", "q", "", 1, "Hello  WORLD"⟩
    "h:b94d27b9934d3e08a52e52d7da7dabfac484efe37a5380ee9088f7ace2efcde9"
    (by decide) (by decide) (by decide) (by decide) (by decide) (Or.inl (by decide))

theorem argmaxAux_bound (l : List ℚ) : ∀ (bi : ℕ) (bv : ℚ) (i : ℕ),
    argmaxAux l bi bv i = bi ∨
      (i ≤ argmaxAux l bi bv i ∧ argmaxAux l bi bv i < i + l.length) := by
  induction l with
  | nil =>
    intro bi bv i
    exact Or.inl rfl
  | cons x xs ih =>
    intro bi bv i
    simp only [argmaxAux, List.length_cons]
    by_cases h : bv < x
    · rw [if_pos h]
      rcases ih i x (i + 1) with he | ⟨h1, h2⟩
      · right
        rw [he]
        omega
      · right
        omega
    · rw [if_neg h]
      rcases ih bi bv (i + 1) with he | ⟨h1, h2⟩
      · exact Or.inl he
      · right
        omega

theorem argmaxIdx_lt (l : List ℚ) (h : l ≠ []) : argmaxIdx l < l.length := by
  cases l with
  | nil => exact absurd rfl h
  | cons x xs =>
    simp only [argmaxIdx, List.length_cons]
    rcases argmaxAux_bound xs 0 x 1 with he | ⟨h1, h2⟩
    · rw [he]
      omega
    · omega

theorem perm_insertIdxDesc (f : ℕ → ℚ) (i : ℕ) (l : List ℕ) :
    (insertIdxDesc f i l).Perm (i :: l) := by
  induction l with
  | nil => simp [insertIdxDesc]
  | cons j js ih =>
    by_cases h : f j < f i
    · simp [insertIdxDesc, h]
    · simp only [insertIdxDesc, h, if_false]
      exact (ih.cons j).trans (List.Perm.swap i j js)

theorem perm_argsortDesc (f : ℕ → ℚ) (n : ℕ) :
    (argsortDesc f n).Perm (List.range n) := by
  unfold argsortDesc
  generalize List.range n = l
  induction l with
  | nil => rfl
  | cons x xs ih =>
    simp only [List.foldr_cons]
    exact (perm_insertIdxDesc f x _).trans (ih.cons x)

theorem getD_mem_of_lt {α : Type} (l : List α) (i : ℕ) (d : α) (h : i < l.length) :
    l.getD i d ∈ l := by
  rw [List.getD_eq_getElem l d h]
  exact List.getElem_mem h

theorem nodup_getD_not_mem_eraseIdx {α : Type} [DecidableEq α] (l : List α) (p : ℕ) (d : α)
    (hp : p < l.length) (h : l.Nodup) : l.getD p d ∉ l.eraseIdx p := by
  induction l generalizing p with
  | nil => simp at hp
  | cons x xs ih =>
    cases p with
    | zero =>
      simpa using (List.nodup_cons.mp h).1
    | succ q =>
      simp only [List.length_cons, Nat.succ_lt_succ_iff] at hp
      have hq := ih q (by omega) (List.nodup_cons.mp h).2
      simp only [List.getD_cons_succ, List.eraseIdx_cons_succ, List.mem_cons]
      push_neg
      constructor
      · intro he
        have hmem : xs.getD q d ∈ xs := getD_mem_of_lt xs q d hp
        rw [he] at hmem
        exact (List.nodup_cons.mp h).1 hmem
      · exact hq

theorem nodup_getD_inj {α : Type} (l : List α) (d : α) (h : l.Nodup) (i j : ℕ)
    (hi : i < l.length) (hj : j < l.length) (he : l.getD i d = l.getD j d) : i = j := by
  rw [List.getD_eq_getElem l d hi, List.getD_eq_getElem l d hj] at he
  exact (List.Nodup.getElem_inj_iff h).mp he

theorem mmrLoop_spec (simq : ℕ → ℚ) (pairSim : ℕ → ℕ → ℚ) (top_n : ℤ) :
    ∀ (fuel : ℕ) (selected rest : List ℕ), rest.length ≤ fuel →
      selected.Nodup → rest.Nodup → (∀ x ∈ selected, x ∉ rest) →
      (mmrLoop simq pairSim top_n fuel selected rest).length ≤
          max selected.length top_n.toNat ∧
        (mmrLoop simq pairSim top_n fuel selected rest).Nodup ∧
        (∀ x ∈ mmrLoop simq pairSim top_n fuel selected rest, x ∈ selected ∨ x ∈ rest) := by
  intro fuel
  induction fuel with
  | zero =>
    intro selected rest hf hns hnr hd
    exact ⟨le_max_of_le_left (le_refl _), hns, fun x hx => Or.inl hx⟩
  | succ f ih =>
    intro selected rest hf hns hnr hd
    by_cases hguard : (rest.isEmpty || decide (top_n ≤ (selected.length : ℤ))) = true
    · have hstep0 : mmrLoop simq pairSim top_n (f + 1) selected rest = selected := by
        rw [mmrLoop, if_pos hguard]
      rw [hstep0]
      exact ⟨le_max_of_le_left (le_refl _), hns, fun x hx => Or.inl hx⟩
    · have hrest_ne : rest ≠ [] := by
        intro he
        rw [he] at hguard
        simp at hguard
      have hlt : (selected.length : ℤ) < top_n := by
        by_contra hcon
        push_neg at hcon
        simp [hcon] at hguard
      set p := mmrStep simq pairSim selected rest with hp
      have hstep : mmrLoop simq pairSim top_n (f + 1) selected rest =
          mmrLoop simq pairSim top_n f (selected ++ [rest.getD p 0]) (rest.eraseIdx p) := by
        rw [mmrLoop, if_neg hguard]
      rw [hstep]
      have hplt : p < rest.length := by
        rw [hp, mmrStep]
        by_cases hse : selected.isEmpty
        · rw [if_pos hse]
          have := argmaxIdx_lt (rest.map simq) (by simpa using hrest_ne)
          simpa using this
        · rw [if_neg hse]
          have := argmaxIdx_lt
            (rest.map (fun i => (7 / 10 : ℚ) * simq i - (3 / 10) * maxSel pairSim selected i))
            (by simpa using hrest_ne)
          simpa using this
      have he_mem : rest.getD p 0 ∈ rest := getD_mem_of_lt rest p 0 hplt
      have he_not_sel : rest.getD p 0 ∉ selected := fun hmem => hd _ hmem he_mem
      have hns2 : (selected ++ [rest.getD p 0]).Nodup := by
        rw [List.nodup_append]
        refine ⟨hns, by simp, ?_⟩
        intro x hx
        simp only [List.mem_singleton]
        intro he
        rw [he] at hx
        exact he_not_sel hx
      have hnr2 : (rest.eraseIdx p).Nodup := (List.eraseIdx_sublist rest p).nodup hnr
      have hd2 : ∀ x ∈ selected ++ [rest.getD p 0], x ∉ rest.eraseIdx p := by
        intro x hx
        rcases List.mem_append.mp hx with hx | hx
        · intro hmem
          exact hd x hx ((List.eraseIdx_sublist rest p).subset hmem)
        · rw [List.mem_singleton.mp hx]
          exact nodup_getD_not_mem_eraseIdx rest p 0 hplt hnr
      have hf2 : (rest.eraseIdx p).length ≤ f := by
        rw [List.length_eraseIdx_of_lt hplt]
        omega
      rcases ih (selected ++ [rest.getD p 0]) (rest.eraseIdx p) hf2 hns2 hnr2 hd2 with
        ⟨hl, hn, hm⟩
      refine ⟨?_, hn, ?_⟩
      · have hlen : (selected ++ [rest.getD p 0]).length = selected.length + 1 := by
          simp
        rw [hlen] at hl
        have h1 : selected.length + 1 ≤ top_n.toNat := by omega
        have h2 : max (selected.length + 1) top_n.toNat = top_n.toNat := by omega
        rw [h2] at hl
        have h3 : top_n.toNat ≤ max selected.length top_n.toNat := le_max_right _ _
        omega
      · intro x hx
        rcases hm x hx with hx2 | hx2
        · rcases List.mem_append.mp hx2 with hx3 | hx3
          · exact Or.inl hx3
          · exact Or.inr (by rw [List.mem_singleton.mp hx3]; exact he_mem)
        · exact Or.inr ((List.eraseIdx_sublist rest p).subset hx2)

theorem mmr_spec (n : ℕ) (simq : ℕ → ℚ) (pairSim : ℕ → ℕ → ℚ) (top_n : ℤ) :
    (mmr n simq pairSim top_n).length ≤ top_n.toNat ∧
      (mmr n simq pairSim top_n).Nodup ∧
      (∀ x ∈ mmr n simq pairSim top_n, x < n) := by
  have h := mmrLoop_spec simq pairSim top_n n [] (List.range n)
    (by simp) (by simp) (List.nodup_range n) (by simp)
  rcases h with ⟨hl, hn, hm⟩
  refine ⟨by simpa using hl, hn, ?_⟩
  intro x hx
  rcases hm x hx with hx2 | hx2
  · simp at hx2
  · exact List.mem_range.mp hx2

theorem nodupKeys_rrf_union (rankings : List (List (String × ℕ))) (k : ℕ) :
    ((rrf_union rankings k).map Prod.fst).Nodup :=
  (((perm_sortDesc (rrfAccum rankings k)).map Prod.fst).nodup_iff).mpr
    (nodupKeys_rrfAccum k rankings)

theorem candList_ids_sublist (fused : List (String × ℚ)) (store : String → Option String)
    (cap : ℤ) :
    ((candList fused store cap).map Prod.fst).Sublist (fused.map Prod.fst) := by
  have h1 : ((fused.filterMap
      (fun p => (store p.1).map (fun d => (p.1, d)))).map Prod.fst).Sublist
      (fused.map Prod.fst) := by
    induction fused with
    | nil => simp
    | cons p rest ih =>
      cases hs : store p.1 with
      | none =>
        simp only [List.filterMap_cons, hs, Option.map_none, List.map_cons]
        exact ih.cons _
      | some d =>
        simp only [List.filterMap_cons, hs, Option.map_some, List.map_cons]
        exact ih.cons₂ _
  have h2 : ((candList fused store cap).map Prod.fst).Sublist
      ((fused.filterMap (fun p => (store p.1).map (fun d => (p.1, d)))).map Prod.fst) := by
    rw [candList, List.map_take]
    exact List.take_sublist _ _
  exact h2.trans h1

theorem filterStage_ids_sublist (cands : List (String × String))
    (req_terms req_phrases : List String) (min_hits : ℤ) (prox : ℕ) :
    ((filterStage cands req_terms req_phrases min_hits prox).map
      (fun x => x.1.1)).Sublist (cands.map Prod.fst) := by
  simp only [filterStage]
  by_cases hk : (strictKeep cands req_terms req_phrases min_hits prox).isEmpty = true
  · rw [if_pos hk, List.map_map]
    exact List.Sublist.refl _
  · rw [if_neg hk, List.map_map]
    have : strictKeep cands req_terms req_phrases min_hits prox =
        cands.filter (fun c => passesFilter c.2 req_terms req_phrases min_hits prox) := rfl
    rw [this]
    exact (List.filter_sublist cands).map Prod.fst

theorem getD_map_lt {α β : Type} (l : List α) (g : α → β) (i : ℕ) (d : α) (y : β)
    (hi : i < l.length) : (l.map g).getD i y = g (l.getD i d) := by
  rw [List.getD_eq_getElem (l.map g) y (by simpa using hi), List.getD_eq_getElem l d hi]
  simp

theorem shortlist_spec (filt : List ((String × String) × ℚ)) (simq : ℕ → ℚ) (top_k : ℤ) :
    (shortlist filt simq top_k).Nodup ∧
      ∀ x ∈ shortlist filt simq top_k, x < filt.length := by
  have hperm := perm_argsortDesc (blendedScore filt simq) filt.length
  have hnodup : (argsortDesc (blendedScore filt simq) filt.length).Nodup :=
    hperm.nodup_iff.mpr (List.nodup_range _)
  constructor
  · exact (List.take_sublist _ _).nodup hnodup
  · intro x hx
    have hx2 : x ∈ argsortDesc (blendedScore filt simq) filt.length :=
      (List.take_sublist _ _).subset hx
    exact List.mem_range.mp (hperm.subset hx2)

theorem keepIdx_spec (filt : List ((String × String) × ℚ)) (simq : ℕ → ℚ)
    (pairSim : ℕ → ℕ → ℚ) (top_k : ℤ) :
    ((keepIdx filt simq pairSim top_k).length : ℤ) ≤ max top_k 0 ∧
      (keepIdx filt simq pairSim top_k).Nodup ∧
      ∀ x ∈ keepIdx filt simq pairSim top_k, x < filt.length := by
  obtain ⟨hsl_nd, hsl_mem⟩ := shortlist_spec filt simq top_k
  obtain ⟨hml, hmn, hmm⟩ := mmr_spec (shortlist filt simq top_k).length
    (fun i => simq ((shortlist filt simq top_k).getD i 0))
    (fun i j => pairSim ((shortlist filt simq top_k).getD i 0)
      ((shortlist filt simq top_k).getD j 0))
    (min top_k ((shortlist filt simq top_k).length : ℤ))
  refine ⟨?_, ?_, ?_⟩
  · simp only [keepIdx, List.length_map]
    omega
  · simp only [keepIdx]
    apply List.Nodup.map_on ?_ hmn
    intro x hx y hy he
    exact nodup_getD_inj _ 0 hsl_nd x y (hmm x hx) (hmm y hy) he
  · intro x hx
    simp only [keepIdx, List.mem_map] at hx
    obtain ⟨i, hi, he⟩ := hx
    rw [← he]
    exact hsl_mem _ (getD_mem_of_lt _ i 0 (hmm i hi))

theorem mmrLoop_nonpos (simq : ℕ → ℚ) (pairSim : ℕ → ℕ → ℚ) (top_n : ℤ)
    (fuel : ℕ) (rest : List ℕ) (h : top_n ≤ 0) :
    mmrLoop simq pairSim top_n fuel [] rest = [] := by
  cases fuel with
  | zero => rfl
  | succ f =>
    rw [mmrLoop, if_pos]
    simp only [List.length_nil, Nat.cast_zero, Bool.or_eq_true, decide_eq_true_eq]
    exact Or.inr (by simpa using h)

theorem keepIdx_nonpos (filt : List ((String × String) × ℚ)) (simq : ℕ → ℚ)
    (pairSim : ℕ → ℕ → ℚ) (top_k : ℤ) (h : top_k ≤ 0) :
    keepIdx filt simq pairSim top_k = [] := by
  simp only [keepIdx, mmr]
  rw [mmrLoop_nonpos]
  · rfl
  · omega

theorem retrieveResults_ne_eq (rankings : List (List (String × ℕ)))
    (store : String → Option String) (req_terms req_phrases : List String)
    (min_hits : ℤ) (prox : ℕ) (pool top_k : ℤ) (simq : ℕ → ℚ) (pairSim : ℕ → ℕ → ℚ)
    (hne : ¬ (rrf_union rankings 60).isEmpty = true) :
    retrieveResults rankings store req_terms req_phrases min_hits prox pool top_k simq pairSim =
      (keepIdx (filterStage (candList (rrf_union rankings 60) store (max pool (top_k * 6)))
          req_terms req_phrases min_hits prox) simq pairSim top_k).map
        (fun i => ((filterStage (candList (rrf_union rankings 60) store (max pool (top_k * 6)))
          req_terms req_phrases min_hits prox).getD i (("", ""), 0)).1.1) := by
  simp only [retrieveResults]
  rw [if_neg hne]

theorem retrieveResults_nonpos (rankings : List (List (String × ℕ)))
    (store : String → Option String) (req_terms req_phrases : List String)
    (min_hits : ℤ) (prox : ℕ) (pool top_k : ℤ) (simq : ℕ → ℚ) (pairSim : ℕ → ℕ → ℚ)
    (h : top_k ≤ 0) :
    retrieveResults rankings store req_terms req_phrases min_hits prox pool top_k simq pairSim =
      [] := by
  by_cases hemp : (rrf_union rankings 60).isEmpty = true
  · simp only [retrieveResults]
    rw [if_pos hemp]
  · rw [retrieveResults_ne_eq rankings store req_terms req_phrases min_hits prox pool top_k
      simq pairSim hemp]
    rw [keepIdx_nonpos _ _ _ _ h]
    rfl

/-- C8 (counterexample): `top_k` is an unconstrained integer query
parameter (`top_k: int = Query(8)`, no lower bound), so a request with
`top_k = -1` is accepted; it returns an empty result list, and
`|results| ≤ top_k` fails since `0 ≤ -1` is false. -/
theorem C8_counterexample :
    retrieveResults [[("a", 1)]] (fun _ => some "doc") [] [] 0 0 50 (-1)
        (fun _ => 0) (fun _ _ => 0) = [] ∧
      ¬ (((retrieveResults [[("a", 1)]] (fun _ => some "doc") [] [] 0 0 50 (-1)
          (fun _ => 0) (fun _ _ => 0)).length : ℤ) ≤ -1) := by
  have h := retrieveResults_nonpos [[("a", 1)]] (fun _ => some "doc") [] [] 0 0 50 (-1)
    (fun _ => 0) (fun _ _ => 0) (by norm_num)
  refine ⟨h, ?_⟩
  rw [h]
  norm_num

/-- C8 (amended): for every retrieve request — over all rank maps,
hydration stores, constraint parameters and similarity values — the
results list contains at most `max(top_k, 0)` entries (hence at most
`top_k` whenever `top_k ≥ 0`), the result ids are pairwise distinct,
and a request with `top_k = 0` succeeds and returns an empty results
list. -/
theorem C8_results_amended (rankings : List (List (String × ℕ)))
    (store : String → Option String) (req_terms req_phrases : List String)
    (min_hits : ℤ) (prox : ℕ) (pool top_k : ℤ) (simq : ℕ → ℚ) (pairSim : ℕ → ℕ → ℚ) :
    (((retrieveResults rankings store req_terms req_phrases min_hits prox pool top_k
        simq pairSim).length : ℤ) ≤ max top_k 0) ∧
      (retrieveResults rankings store req_terms req_phrases min_hits prox pool top_k
        simq pairSim).Nodup ∧
      (top_k = 0 → retrieveResults rankings store req_terms req_phrases min_hits prox pool
        top_k simq pairSim = []) := by
  by_cases hemp : (rrf_union rankings 60).isEmpty = true
  · have h0 : retrieveResults rankings store req_terms req_phrases min_hits prox pool top_k
        simq pairSim = [] := by
      simp only [retrieveResults]
      rw [if_pos hemp]
    rw [h0]
    refine ⟨by simp [le_max_right], List.nodup_nil, fun _ => rfl⟩
  · rw [retrieveResults_ne_eq rankings store req_terms req_phrases min_hits prox pool top_k
      simq pairSim hemp]
    obtain ⟨hkl, hkn, hkm⟩ := keepIdx_spec
      (filterStage (candList (rrf_union rankings 60) store (max pool (top_k * 6)))
        req_terms req_phrases min_hits prox) simq pairSim top_k
    have hfused_nd := nodupKeys_rrf_union rankings 60
    have hcand_nd : ((candList (rrf_union rankings 60) store (max pool (top_k * 6))).map
        Prod.fst).Nodup :=
      (candList_ids_sublist (rrf_union rankings 60) store (max pool (top_k * 6))).nodup
        hfused_nd
    have hfilt_nd : ((filterStage (candList (rrf_union rankings 60) store
        (max pool (top_k * 6))) req_terms req_phrases min_hits prox).map
        (fun x => x.1.1)).Nodup :=
      (filterStage_ids_sublist (candList (rrf_union rankings 60) store (max pool (top_k * 6)))
        req_terms req_phrases min_hits prox).nodup hcand_nd
    refine ⟨?_, ?_, ?_⟩
    · simpa using hkl
    · apply List.Nodup.map_on ?_ hkn
      intro x hx y hy he
      have hxl := hkm x hx
      have hyl := hkm y hy
      rw [← getD_map_lt _ (fun z => z.1.1) x (("", ""), 0) "" hxl,
        ← getD_map_lt _ (fun z => z.1.1) y (("", ""), 0) "" hyl] at he
      exact nodup_getD_inj _ "" hfilt_nd x y (by simpa using hxl) (by simpa using hyl) he
    · intro h0
      rw [keepIdx_nonpos _ _ _ _ (by omega)]
      rfl

lemma sqNorm_nonneg (v : List ℝ) : 0 ≤ sqNorm v := by
  unfold sqNorm
  refine List.sum_nonneg (fun x hx => ?_)
  obtain ⟨y, _, rfl⟩ := List.mem_map.1 hx
  exact sq_nonneg y

lemma sqNorm_map_div (m : List ℝ) (c : ℝ) :
    sqNorm (m.map (fun x => x / c)) = sqNorm m / c ^ 2 := by
  induction m with
  | nil => simp [sqNorm]
  | cons x xs ih =>
    simp only [sqNorm, List.map_cons, List.sum_cons] at ih ⊢
    rw [ih, div_pow, add_div]

lemma l2norm_nonneg (v : List ℝ) : 0 ≤ l2norm v := Real.sqrt_nonneg _

lemma l2norm_normalizeRow (m : List ℝ) :
    l2norm (normalizeRow m) = l2norm m / (l2norm m + 1 / 1000000000) := by
  have hc : (0 : ℝ) < Real.sqrt (sqNorm m) + 1 / 1000000000 := by
    have h := Real.sqrt_nonneg (sqNorm m)
    linarith
  simp only [normalizeRow, l2norm]
  rw [sqNorm_map_div, Real.sqrt_div (sqNorm_nonneg m), Real.sqrt_sq hc.le]

/-- C9 (counterexample): the claim says every dense vector produced by
the embedder wrapper has L2 norm 1 within 10⁻⁶, for every input text.
But the pipeline maps a text with no in-vocabulary token to the
all-zero row (TF-IDF of an out-of-vocabulary query is the zero vector
and SVD maps zero to zero), and the normalization `row / (norm + 1e-9)`
of the zero row is the zero row, whose L2 norm is 0, not within 10⁻⁶
of 1. -/
theorem C9_counterexample :
    normalizeRow [0] = [0] ∧ ¬ |l2norm (normalizeRow [0]) - 1| ≤ 1 / 1000000 := by
  have h1 : normalizeRow [0] = [0] := by simp [normalizeRow]
  refine ⟨h1, ?_⟩
  rw [h1]
  have h2 : l2norm [0] = 0 := by
    rw [l2norm]
    norm_num [sqNorm, Real.sqrt_zero]
  rw [h2, show (0 : ℝ) - 1 = -1 by ring, abs_neg, abs_one]
  norm_num

/-- C9 (amended): each row produced by `Embedder.embed_list` /
`_pipe_transform` normalization has L2 norm exactly
`‖row‖ / (‖row‖ + 1e-9)`; this is always at most 1, and whenever the
un-normalized row's norm is at least 10⁻³ the normalized norm is
within 10⁻⁶ of 1. The unconditional unit-norm claim fails on the
zero row. -/
theorem C9_norm_amended (m : List ℝ) :
    l2norm (normalizeRow m) = l2norm m / (l2norm m + 1 / 1000000000) ∧
    l2norm (normalizeRow m) ≤ 1 ∧
    (1 / 1000 ≤ l2norm m → |l2norm (normalizeRow m) - 1| ≤ 1 / 1000000) := by
  have h0 : (0 : ℝ) ≤ l2norm m := l2norm_nonneg m
  have hc : (0 : ℝ) < l2norm m + 1 / 1000000000 := by linarith
  have heq := l2norm_normalizeRow m
  refine ⟨heq, ?_, ?_⟩
  · rw [heq, div_le_one hc]
    linarith
  · intro hs
    rw [heq, abs_le]
    constructor
    · have key : (1 - 1 / 1000000) * (l2norm m + 1 / 1000000000) ≤ l2norm m := by
        nlinarith
      have h4 : (1 : ℝ) - 1 / 1000000 ≤ l2norm m / (l2norm m + 1 / 1000000000) :=
        (le_div_iff₀ hc).mpr key
      linarith
    · have h5 : l2norm m / (l2norm m + 1 / 1000000000) ≤ 1 := by
        rw [div_le_one hc]
        linarith
      linarith

/-- C9 (witness): the singleton row `[1]` has norm 1 ≥ 10⁻³, and its
normalization has L2 norm within 10⁻⁶ of 1. -/
theorem C9_witness : |l2norm (normalizeRow [1]) - 1| ≤ 1 / 1000000 := by
  have h : (1 : ℝ) / 1000 ≤ l2norm [1] := by
    rw [l2norm]
    norm_num [sqNorm, Real.sqrt_one]
  exact (C9_norm_amended [1]).2.2 h
